import Mathlib

/-!
# Verification of the BLAKE3 Merkle-tree repository

A shallow embedding, in Lean 4, of the Rust sources in
`src/src/binary_merkle_tree.rs`: the BLAKE3 compression primitive, chunk
state machine, streaming hasher, the chunk-outputs producer, and the two
Merkle-tree variants (balanced `BinaryMerkleTree`, `UnbalancedMerkleTree`).

Machine integers are modelled as `Nat` with explicit reductions modulo
`2 ^ 32`; byte buffers and word arrays are `List Nat`; the mutable loops of
the source become structurally recursive functions, using an explicit fuel
argument equal to a bound on the number of iterations the Rust loop
performs (the fuel is pure termination bookkeeping: on every input the
source can reach, the fuel is sufficient and the embedded function follows
the loop exactly).  Fallible operations return an explicit result type.

Definitions come first, mirroring the Rust; theorems follow.
-/

namespace MerkleB3

/-! ## 32-bit word primitives -/

/-- Wrapping 32-bit addition (`u32::wrapping_add`). -/
def add32 (a b : Nat) : Nat := (a + b) % 4294967296

/-- 32-bit XOR. Operands are reduced to their low 32 bits first, which is
the identity on every word the source produces. -/
def xor32 (a b : Nat) : Nat := Nat.xor (a % 4294967296) (b % 4294967296)

/-- Circular right rotation of a 32-bit word by `n` bits
(`u32::rotate_right`). -/
def rotr32 (x n : Nat) : Nat :=
  (x % 4294967296) / 2 ^ n + (x % 4294967296) % 2 ^ n * 2 ^ (32 - n)

/-! ## Constants from the source -/

def OUT_LEN : Nat := 32
def BLOCK_LEN : Nat := 64
def CHUNK_LEN : Nat := 1024

def CHUNK_START : Nat := 1
def CHUNK_END : Nat := 2
def PARENT : Nat := 4
def ROOT : Nat := 8

/-- The fixed 8-word BLAKE3 initial values. -/
def IV : List Nat :=
  [0x6A09E667, 0xBB67AE85, 0x3C6EF372, 0xA54FF53A,
   0x510E527F, 0x9B05688C, 0x1F83D9AB, 0x5BE0CD19]

/-- The fixed message-word schedule applied between rounds. -/
def msgPermutation : List Nat := [2, 6, 3, 10, 7, 0, 4, 13, 1, 11, 12, 5, 9, 14, 15, 8]

/-! ## The compression function (source lines 91-162) -/

/-- The G mixing function: eight sequential updates of the 16-word state at
positions `a b c d`, exactly as in `fn g`. -/
def g (state : List Nat) (a b c d mx my : Nat) : List Nat :=
  let s := state
  let s := s.set a (add32 (add32 (s.getD a 0) (s.getD b 0)) mx)
  let s := s.set d (rotr32 (xor32 (s.getD d 0) (s.getD a 0)) 16)
  let s := s.set c (add32 (s.getD c 0) (s.getD d 0))
  let s := s.set b (rotr32 (xor32 (s.getD b 0) (s.getD c 0)) 12)
  let s := s.set a (add32 (add32 (s.getD a 0) (s.getD b 0)) my)
  let s := s.set d (rotr32 (xor32 (s.getD d 0) (s.getD a 0)) 8)
  let s := s.set c (add32 (s.getD c 0) (s.getD d 0))
  let s := s.set b (rotr32 (xor32 (s.getD b 0) (s.getD c 0)) 7)
  s

/-- One round: mix the four columns, then the four diagonals (`fn round`). -/
def roundFn (state m : List Nat) : List Nat :=
  let s := state
  let s := g s 0 4 8 12 (m.getD 0 0) (m.getD 1 0)
  let s := g s 1 5 9 13 (m.getD 2 0) (m.getD 3 0)
  let s := g s 2 6 10 14 (m.getD 4 0) (m.getD 5 0)
  let s := g s 3 7 11 15 (m.getD 6 0) (m.getD 7 0)
  let s := g s 0 5 10 15 (m.getD 8 0) (m.getD 9 0)
  let s := g s 1 6 11 12 (m.getD 10 0) (m.getD 11 0)
  let s := g s 2 7 8 13 (m.getD 12 0) (m.getD 13 0)
  let s := g s 3 4 9 14 (m.getD 14 0) (m.getD 15 0)
  s

/-- Permute the 16 message words by `msgPermutation` (`fn permute`). -/
def permute (m : List Nat) : List Nat :=
  (List.range 16).map fun i => m.getD (msgPermutation.getD i 0) 0

/-- The BLAKE3 compression function (`fn compress`): initialize the state
from the chaining value, `IV[0..4]`, the split 64-bit counter, the block
length and the flags; apply seven rounds with a message permutation between
consecutive rounds; then fold the two state halves. -/
def compress (chaining_value block_words : List Nat) (counter block_len flags : Nat) :
    List Nat :=
  let counter_low := counter % 4294967296
  let counter_high := counter / 4294967296 % 4294967296
  let state : List Nat :=
    [chaining_value.getD 0 0, chaining_value.getD 1 0,
     chaining_value.getD 2 0, chaining_value.getD 3 0,
     chaining_value.getD 4 0, chaining_value.getD 5 0,
     chaining_value.getD 6 0, chaining_value.getD 7 0,
     IV.getD 0 0, IV.getD 1 0, IV.getD 2 0, IV.getD 3 0,
     counter_low, counter_high, block_len, flags]
  let block := block_words
  let state := roundFn state block -- round 1
  let block := permute block
  let state := roundFn state block -- round 2
  let block := permute block
  let state := roundFn state block -- round 3
  let block := permute block
  let state := roundFn state block -- round 4
  let block := permute block
  let state := roundFn state block -- round 5
  let block := permute block
  let state := roundFn state block -- round 6
  let block := permute block
  let state := roundFn state block -- round 7
  (List.range 8).foldl
    (fun s i =>
      let s := s.set i (xor32 (s.getD i 0) (s.getD (i + 8) 0))
      s.set (i + 8) (xor32 (s.getD (i + 8) 0) (chaining_value.getD i 0)))
    state

/-- `fn first_8_words`. -/
def first_8_words (compression_output : List Nat) : List Nat :=
  compression_output.take 8

/-! ## Byte / word conversions -/

/-- `u32::to_le_bytes`. -/
def wordLEBytes (w : Nat) : List Nat :=
  [w % 256, w / 256 % 256, w / 65536 % 256, w / 16777216 % 256]

/-- Serialize a word list little-endian, word by word. -/
def wordsLEBytes (ws : List Nat) : List Nat :=
  (ws.map wordLEBytes).flatten

/-- `fn words_from_little_endian_bytes` specialised to the only use in the
source: reading a 64-byte block buffer as 16 little-endian words. -/
def wordsFromLEBytes (bytes : List Nat) : List Nat :=
  (List.range 16).map fun i =>
    bytes.getD (4 * i) 0 + 256 * bytes.getD (4 * i + 1) 0 +
      65536 * bytes.getD (4 * i + 2) 0 + 16777216 * bytes.getD (4 * i + 3) 0

/-! ## The Output record (source lines 25-89) -/

/-- `struct Output`: the snapshot of a final compression's inputs. -/
structure Output where
  input_chaining_value : List Nat
  block_words : List Nat
  counter : Nat
  block_len : Nat
  flags : Nat
deriving DecidableEq, Repr

/-- `Output::chaining_value`. -/
def Output.chaining_value (o : Output) : List Nat :=
  first_8_words (compress o.input_chaining_value o.block_words o.counter o.block_len o.flags)

/-- One 64-byte stride of `Output::root_output_bytes`: the compression at
output-block counter `j`, with the ROOT flag set, serialized little-endian. -/
def Output.rootStrideBytes (o : Output) (j : Nat) : List Nat :=
  wordsLEBytes
    (compress o.input_chaining_value o.block_words j o.block_len (Nat.lor o.flags ROOT))

/-- The loop body of `Output::root_output_bytes`, structurally recursive on
the number of remaining 64-byte output blocks.  Each iteration writes
`min 64 rem` bytes (the per-4-byte truncating copy of the source's inner
`zip` amounts to truncating the 64 serialized bytes to the block's length),
then advances the output-block counter.  `blocks` bounds the iteration
count; the wrapper passes enough. -/
def rootOutputLoop (o : Output) : Nat → Nat → Nat → List Nat
  | 0, _, _ => []
  | blocks + 1, j, rem =>
    if rem = 0 then []
    else
      (o.rootStrideBytes j).take (min 64 rem) ++
        rootOutputLoop o blocks (j + 1) (rem - min 64 rem)

/-- `Output::root_output_bytes`, as a function from the requested output
length to the produced bytes (the source fills a caller-provided buffer;
every byte of the buffer is overwritten). -/
def Output.root_output_bytes (o : Output) (outLen : Nat) : List Nat :=
  rootOutputLoop o outLen 0 outLen

/-- `fn parent_output`.  The source copies the two 8-word child chaining
values into the halves of a zeroed 16-word block; for 8-word inputs this is
their concatenation. -/
def parent_output (left_child_cv right_child_cv key_words : List Nat) (flags : Nat) :
    Output where
  input_chaining_value := key_words
  block_words := left_child_cv ++ right_child_cv
  counter := 0
  block_len := BLOCK_LEN
  flags := Nat.lor PARENT flags

/-- `fn parent_cv`. -/
def parent_cv (left_child_cv right_child_cv key_words : List Nat) (flags : Nat) :
    List Nat :=
  (parent_output left_child_cv right_child_cv key_words flags).chaining_value

/-! ## ChunkState (source lines 171-247) -/

/-- `struct ChunkState`. -/
structure ChunkState where
  chaining_value : List Nat
  chunk_counter : Nat
  block : List Nat
  block_len : Nat
  blocks_compressed : Nat
  flags : Nat
deriving DecidableEq, Repr

/-- `ChunkState::new`. -/
def ChunkState.new (key_words : List Nat) (chunk_counter flags : Nat) : ChunkState where
  chaining_value := key_words
  chunk_counter := chunk_counter
  block := List.replicate 64 0
  block_len := 0
  blocks_compressed := 0
  flags := flags

/-- `ChunkState::len`. -/
def ChunkState.len (s : ChunkState) : Nat :=
  64 * s.blocks_compressed + s.block_len

/-- `ChunkState::start_flag`. -/
def ChunkState.start_flag (s : ChunkState) : Nat :=
  if s.blocks_compressed = 0 then CHUNK_START else 0

/-- Overwrite `block[off .. off + bytes.length)` with `bytes`
(`copy_from_slice` into a sub-slice). -/
def writeBytes (block : List Nat) (off : Nat) (bytes : List Nat) : List Nat :=
  block.take off ++ bytes ++ block.drop (off + bytes.length)

/-- The loop body of `ChunkState::update`.  Every iteration of the source's
`while` consumes at least one input byte, so fuel `input.length` is exact;
the `take = 0` early return is unreachable from any state the source
reaches (there `block_len` never exceeds 64). -/
def ChunkState.updateLoop : Nat → ChunkState → List Nat → ChunkState
  | 0, s, _ => s
  | fuel + 1, s, input =>
    if input.length = 0 then s
    else
      let s :=
        if s.block_len = BLOCK_LEN then
          let block_words := wordsFromLEBytes s.block
          { s with
            chaining_value := first_8_words (compress s.chaining_value block_words
              s.chunk_counter BLOCK_LEN (Nat.lor s.flags s.start_flag))
            blocks_compressed := s.blocks_compressed + 1
            block := List.replicate 64 0
            block_len := 0 }
        else s
      let want := BLOCK_LEN - s.block_len
      let take := min want input.length
      if take = 0 then s
      else
        ChunkState.updateLoop fuel
          { s with
            block := writeBytes s.block s.block_len (input.take take)
            block_len := s.block_len + take }
          (input.drop take)

/-- `ChunkState::update`. -/
def ChunkState.update (s : ChunkState) (input : List Nat) : ChunkState :=
  ChunkState.updateLoop input.length s input

/-- `ChunkState::output`. -/
def ChunkState.output (s : ChunkState) : Output where
  input_chaining_value := s.chaining_value
  block_words := wordsFromLEBytes s.block
  counter := s.chunk_counter
  block_len := s.block_len
  flags := Nat.lor (Nat.lor s.flags s.start_flag) CHUNK_END

/-! ## The streaming hasher (source lines 258-371) -/

/-- `struct Blake3Hasher`.  The fixed 54-entry chaining-value array together
with its length counter is modelled as a list whose head is the top of the
stack (the most recently pushed entry). -/
structure Blake3Hasher where
  chunk_state : ChunkState
  key_words : List Nat
  cv_stack : List (List Nat)
  flags : Nat
deriving DecidableEq, Repr

/-- `Blake3Hasher::new_internal`. -/
def Blake3Hasher.new_internal (key_words : List Nat) (flags : Nat) : Blake3Hasher where
  chunk_state := ChunkState.new key_words 0 flags
  key_words := key_words
  cv_stack := []
  flags := flags

/-- `Blake3Hasher::new`. -/
def Blake3Hasher.new : Blake3Hasher :=
  Blake3Hasher.new_internal IV 0

/-- The merge loop of `Blake3Hasher::add_chunk_chaining_value`, recursing on
fuel.  Each pass with an even total halves the total, so any fuel of at
least `total` suffices; the `total = 0` guard is unreachable (the source is
always called with `total_chunks` at least 1; with 0 its loop would not
terminate). -/
def addChunkLoop (key_words : List Nat) (flags : Nat) :
    Nat → List (List Nat) → List Nat → Nat → List (List Nat)
  | 0, stack, new_cv, _ => new_cv :: stack
  | fuel + 1, stack, new_cv, total =>
    if total % 2 = 0 ∧ total ≠ 0 then
      addChunkLoop key_words flags fuel stack.tail
        (parent_cv (stack.headD (List.replicate 8 0)) new_cv key_words flags)
        (total / 2)
    else new_cv :: stack

/-- `Blake3Hasher::add_chunk_chaining_value`, acting on the stack. -/
def addChunkCV (key_words : List Nat) (flags : Nat) (stack : List (List Nat))
    (new_cv : List Nat) (total_chunks : Nat) : List (List Nat) :=
  addChunkLoop key_words flags total_chunks stack new_cv total_chunks

/-- The loop body of `Blake3Hasher::update`.  As in `ChunkState.updateLoop`,
each iteration consumes at least one input byte. -/
def Blake3Hasher.updateLoop : Nat → Blake3Hasher → List Nat → Blake3Hasher
  | 0, h, _ => h
  | fuel + 1, h, input =>
    if input.length = 0 then h
    else
      let h :=
        if h.chunk_state.len = CHUNK_LEN then
          let chunk_cv := h.chunk_state.output.chaining_value
          let total_chunks := h.chunk_state.chunk_counter + 1
          { h with
            cv_stack := addChunkCV h.key_words h.flags h.cv_stack chunk_cv total_chunks
            chunk_state := ChunkState.new h.key_words total_chunks h.flags }
        else h
      let want := CHUNK_LEN - h.chunk_state.len
      let take := min want input.length
      if take = 0 then h
      else
        Blake3Hasher.updateLoop fuel
          { h with chunk_state := h.chunk_state.update (input.take take) }
          (input.drop take)

/-- `Blake3Hasher::update`. -/
def Blake3Hasher.update (h : Blake3Hasher) (input : List Nat) : Blake3Hasher :=
  Blake3Hasher.updateLoop input.length h input

/-- The right-edge fold of `Blake3Hasher::finalize`: combine the running
output with each stacked chaining value, from the most recently pushed
(the head) downward. -/
def finalizeFold (key_words : List Nat) (flags : Nat) :
    Output → List (List Nat) → Output
  | output, [] => output
  | output, cv :: rest =>
    finalizeFold key_words flags (parent_output cv output.chaining_value key_words flags) rest

/-- `Blake3Hasher::finalize`, as a function from the requested output length
to the produced bytes. -/
def Blake3Hasher.finalize (h : Blake3Hasher) (outLen : Nat) : List Nat :=
  (finalizeFold h.key_words h.flags h.chunk_state.output h.cv_stack).root_output_bytes outLen

/-! ## The chunk-outputs producer (source lines 566-597) -/

/-- The loop of `process_input_to_chunks`, with the source's trailing
`if chunk_state.len() > 0` check folded into the empty-input exit of the
loop.  Each iteration consumes at least one input byte. -/
def processChunksLoop : Nat → ChunkState → List Nat → List Output
  | 0, cs, _ => if 0 < cs.len then [cs.output] else []
  | fuel + 1, cs, input =>
    if input.length = 0 then if 0 < cs.len then [cs.output] else []
    else
      let emitted :=
        if cs.len = CHUNK_LEN then
          ([cs.output], ChunkState.new IV (cs.chunk_counter + 1) 0)
        else ([], cs)
      let outs := emitted.1
      let cs := emitted.2
      let want := CHUNK_LEN - cs.len
      let take := min want input.length
      if take = 0 then outs
      else outs ++ processChunksLoop fuel (cs.update (input.take take)) (input.drop take)

/-- `fn process_input_to_chunks`. -/
def process_input_to_chunks (input : List Nat) : List Output :=
  processChunksLoop input.length (ChunkState.new IV 0 0) input

/-! ## The balanced binary Merkle tree (source lines 373-558) -/

/-- The sentinel filler `Output` of `BinaryMerkleTree::new_empty`. -/
def emptyOutput : Output where
  input_chaining_value := IV
  block_words := List.replicate 16 0
  counter := 0
  block_len := 64
  flags := 0

/-- `usize::next_power_of_two` (1 for inputs of at most 1), structurally
recursive on a fuel that the wrapper instantiates sufficiently. -/
def nextPow2Loop : Nat → Nat → Nat
  | 0, _ => 1
  | fuel + 1, n => if n ≤ 1 then 1 else 2 * nextPow2Loop fuel ((n + 1) / 2)

/-- Smallest power of two that is at least `n` (and 1 for `n = 0`). -/
def nextPow2 (n : Nat) : Nat := nextPow2Loop n n

/-- `struct BinaryMerkleTree`: the 1-indexed node array (index 0 is padding). -/
structure BinaryMerkleTree where
  tree : List Output
deriving DecidableEq, Repr

/-- `BinaryMerkleTree::new_empty` (the power-of-two assertion on the argument
is a documented precondition; every caller in the source satisfies it). -/
def BinaryMerkleTree.new_empty (number_of_leaves : Nat) : BinaryMerkleTree where
  tree := List.replicate (2 * number_of_leaves) emptyOutput

/-- `BinaryMerkleTree::root`: node 1 with the ROOT flag applied to the copy. -/
def BinaryMerkleTree.root (t : BinaryMerkleTree) : Output :=
  let r := t.tree.getD 1 emptyOutput
  { r with flags := Nat.lor r.flags ROOT }

/-- `BinaryMerkleTree::num_leaves`. -/
def BinaryMerkleTree.num_leaves (t : BinaryMerkleTree) : Nat :=
  t.tree.length / 2

/-- `BinaryMerkleTree::get_tree_length`. -/
def BinaryMerkleTree.get_tree_length (t : BinaryMerkleTree) : Nat :=
  t.tree.length - 1

/-- `BinaryMerkleTree::get_parent_index`. -/
def getParentIndex (index : Nat) : Nat := index / 2

/-- `BinaryMerkleTree::get_sibling_index`. -/
def getSiblingIndex (index : Nat) : Nat := Nat.xor index 1

/-- `BinaryMerkleTree::is_left`. -/
def isLeftNode (index : Nat) : Bool := index % 2 = 0

/-- `BinaryMerkleTree::get_left_and_right_node_indices_from_index`, including
the source's boolean indexing into the two-element `node_pair` array. -/
def leftRightIndices (current_index : Nat) : Nat × Nat :=
  let sibling_index := getSiblingIndex current_index
  let node_pair := [current_index, sibling_index]
  let left_node_index := node_pair.getD (if isLeftNode sibling_index then 1 else 0) 0
  let right_node_index := node_pair.getD (if isLeftNode current_index then 1 else 0) 0
  (left_node_index, right_node_index)

/-- The `while hash_queue.len() > 1` loop of
`BinaryMerkleTree::create_tree_from_leaves`: dequeue two nodes, write their
parent at `left_index / 2`, enqueue it.  Each iteration shrinks the queue by
one, so fuel `queue.length` suffices. -/
def buildLoop : Nat → List Output → List (Output × Nat) → List Output
  | 0, tree, _ => tree
  | fuel + 1, tree, (left_child, left_index) :: (right_child, _right_index) :: rest =>
    let p := parent_output left_child.chaining_value right_child.chaining_value IV 0
    let parent_index := getParentIndex left_index
    buildLoop fuel (tree.set parent_index p) (rest ++ [(p, parent_index)])
  | _ + 1, tree, _ => tree

/-- `BinaryMerkleTree::create_tree_from_leaves`, acting on the node array.
The `splice` call replaces the last `leaves.len()` slots (for `vec!`-built
storage, capacity equals length); the queue is seeded from the slots
starting at `get_tree_length() / 2 + 1` zipped with their indices. -/
def createTreeFromLeaves (tree0 : List Output) (leaves : List Output) : List Output :=
  let number_of_leaves := leaves.length
  let tree := tree0.take (tree0.length - number_of_leaves) ++ leaves
  if number_of_leaves = 1 then tree
  else
    let leaf_start_index := (tree.length - 1) / 2 + 1
    let queue :=
      (tree.drop leaf_start_index).zip
        (List.range' leaf_start_index number_of_leaves)
    buildLoop queue.length tree queue

/-- `BinaryMerkleTree::new_from_leaves`. -/
def BinaryMerkleTree.new_from_leaves (leaves : List Output) : BinaryMerkleTree :=
  let number_of_leaves := nextPow2 leaves.length
  let t := BinaryMerkleTree.new_empty number_of_leaves
  { tree := createTreeFromLeaves t.tree leaves }

/-- The ancestor-update walk of `BinaryMerkleTree::insert_leaf`.  The index
at least halves every iteration, so fuel `current_index` suffices. -/
def insertLeafLoop : Nat → List Output → Nat → List Output
  | 0, tree, _ => tree
  | fuel + 1, tree, current_index =>
    if current_index ≤ 1 then tree
    else
      let parent_index := getParentIndex current_index
      let lr := leftRightIndices current_index
      let left_node := tree.getD lr.1 emptyOutput
      let right_node := tree.getD lr.2 emptyOutput
      let p := parent_output left_node.chaining_value right_node.chaining_value IV 0
      insertLeafLoop fuel (tree.set parent_index p) parent_index

/-- `BinaryMerkleTree::insert_leaf`. -/
def BinaryMerkleTree.insert_leaf (t : BinaryMerkleTree) (leaf_index : Nat)
    (leaf_output : Output) : BinaryMerkleTree :=
  let real_leaf_index := leaf_index + t.num_leaves
  let tree := t.tree.set real_leaf_index leaf_output
  { tree := insertLeafLoop real_leaf_index tree real_leaf_index }

/-- Result of a bulk insertion: the source's `Option<()>` return together
with the distinguished outcome in which the call does not return at all
(an arithmetic-underflow / out-of-bounds panic). -/
inductive BulkResult (α : Type) where
  | panicked : BulkResult α
  | rejected : BulkResult α
  | ok : α → BulkResult α
deriving DecidableEq, Repr

/-- The ancestor-update queue loop of `BinaryMerkleTree::bulk_insert_leaves`:
pop an index (stopping at the root), drop the front when it is the popped
index's sibling, recompute the parent from the current node array, enqueue
the parent.  On every reachable state each iteration strictly decreases the
sum of queue indices plus the queue length, which the wrapper's fuel
dominates. -/
def bulkLoop : Nat → List Output → List Nat → List Output
  | 0, tree, _ => tree
  | _ + 1, tree, [] => tree
  | fuel + 1, tree, current_index :: rest =>
    if current_index = 1 then tree
    else
      let sibling_index := getSiblingIndex current_index
      let rest :=
        match rest with
        | next_index :: more => if next_index = sibling_index then more else next_index :: more
        | [] => []
      let lr := leftRightIndices current_index
      let left_node := tree.getD lr.1 emptyOutput
      let right_node := tree.getD lr.2 emptyOutput
      let p := parent_output left_node.chaining_value right_node.chaining_value IV 0
      let parent_index := getParentIndex current_index
      bulkLoop fuel (tree.set parent_index p) (rest ++ [parent_index])

/-- `BinaryMerkleTree::bulk_insert_leaves`.  The source's inline `is_sorted`
evaluates the range `0 .. leaf_indices.len() - 1`; on an empty index list
the length underflows (or, in release builds, the first indexing is out of
bounds), so the call panics — `BulkResult.panicked`. -/
def BinaryMerkleTree.bulk_insert_leaves (t : BinaryMerkleTree)
    (leaf_indices_iter : List Nat) (leaf_hashes_iter : List Output) :
    BulkResult BinaryMerkleTree :=
  let leaf_offset := t.num_leaves
  let leaf_indices := leaf_indices_iter.map (· + leaf_offset)
  if leaf_indices.length = 0 then .panicked
  else if ¬ ((List.range (leaf_indices.length - 1)).all fun i =>
      decide (leaf_indices.getD i 0 < leaf_indices.getD (i + 1) 0)) then .rejected
  else
    let tree :=
      (leaf_indices.zip leaf_hashes_iter).foldl (fun tr p => tr.set p.1 p.2) t.tree
    let fuel := leaf_indices.foldl (· + ·) 0 + leaf_indices.length + 1
    .ok { tree := bulkLoop fuel tree leaf_indices }

/-! ## The unbalanced Merkle tree (source lines 599-822) -/

/-- `struct UnbalancedMerkleTree`. -/
structure UnbalancedMerkleTree where
  tree : List Output
  actual_leaves : Nat
deriving DecidableEq, Repr

/-- One pass of the level-building `for` loop in
`UnbalancedMerkleTree::create_tree_from_leaves`: for each parent position,
either promote a left child without a right sibling, or combine the pair. -/
def levelStep (s nodes : Nat) (tree : List Output) : List Output :=
  (List.range ((nodes + 1) / 2)).foldl
    (fun t i =>
      let left_index := s + 2 * i
      let right_index := left_index + 1
      let parent_index := s / 2 + i
      if nodes ≤ 2 * i + 1 then t.set parent_index (t.getD left_index emptyOutput)
      else
        t.set parent_index
          (parent_output (t.getD left_index emptyOutput).chaining_value
            (t.getD right_index emptyOutput).chaining_value IV 0))
    tree

/-- The `while current_level_start > 1` loop: build each level from the one
below.  The level start halves every pass, so fuel `s` suffices. -/
def buildLevels : Nat → List Output → Nat → Nat → List Output
  | 0, tree, _, _ => tree
  | fuel + 1, tree, s, nodes =>
    if s ≤ 1 then tree
    else buildLevels fuel (levelStep s nodes tree) (s / 2) ((nodes + 1) / 2)

/-- `UnbalancedMerkleTree::create_tree_from_leaves`, acting on the fields. -/
def unbalancedCreate (tree0 : List Output) (actual_leaves : Nat)
    (leaves : List Output) : List Output :=
  let leaf_start_index := tree0.length / 2
  let tree :=
    (leaves.zip (List.range leaves.length)).foldl
      (fun t p => t.set (leaf_start_index + p.2) p.1) tree0
  if actual_leaves = 1 then tree.set 1 (tree.getD leaf_start_index emptyOutput)
  else buildLevels leaf_start_index tree leaf_start_index actual_leaves

/-- `UnbalancedMerkleTree::new_from_leaves`. -/
def UnbalancedMerkleTree.new_from_leaves (leaves : List Output) : UnbalancedMerkleTree :=
  let actual_leaves := leaves.length
  let number_of_leaves := nextPow2 leaves.length
  let tree0 := List.replicate (2 * number_of_leaves) emptyOutput
  { tree := unbalancedCreate tree0 actual_leaves leaves
    actual_leaves := actual_leaves }

/-- `UnbalancedMerkleTree::root`. -/
def UnbalancedMerkleTree.root (t : UnbalancedMerkleTree) : Output :=
  let r := t.tree.getD 1 emptyOutput
  { r with flags := Nat.lor r.flags ROOT }

/-- `UnbalancedMerkleTree::num_leaves`. -/
def UnbalancedMerkleTree.num_leaves (t : UnbalancedMerkleTree) : Nat :=
  t.actual_leaves

/-- The strictly-ascending check of `UnbalancedMerkleTree::bulk_insert_leaves`
(`windows(2).all`), which is total — in particular `true` on lists shorter
than two. -/
def pairwiseAscending : List Nat → Bool
  | a :: b :: rest => decide (a < b) && pairwiseAscending (b :: rest)
  | _ => true

/-- The ancestor-update queue loop of
`UnbalancedMerkleTree::bulk_insert_leaves`.  The queue stores logical leaf
offsets; `parent_index - leaf_start` reproduces the source's `usize`
subtraction, truncating at zero where the source would underflow (no claim
exercises that path). -/
def unbalancedBulkLoop (leaf_start actual_leaves : Nat) :
    Nat → List Output → List Nat → List Output
  | 0, tree, _ => tree
  | _ + 1, tree, [] => tree
  | fuel + 1, tree, leaf_index :: rest =>
    let current_index := leaf_start + leaf_index
    if current_index ≤ 1 then tree
    else
      let parent_index := current_index / 2
      let left_index := parent_index * 2
      let right_index := left_index + 1
      let rest :=
        match rest with
        | next_leaf_index :: more =>
          if leaf_start + next_leaf_index = right_index then more
          else next_leaf_index :: more
        | [] => []
      let has_right_sibling := right_index - leaf_start < actual_leaves
      let tree :=
        if has_right_sibling then
          tree.set parent_index
            (parent_output (tree.getD left_index emptyOutput).chaining_value
              (tree.getD right_index emptyOutput).chaining_value IV 0)
        else tree.set parent_index (tree.getD left_index emptyOutput)
      unbalancedBulkLoop leaf_start actual_leaves fuel tree
        (rest ++ [parent_index - leaf_start])

/-- `UnbalancedMerkleTree::bulk_insert_leaves`. -/
def UnbalancedMerkleTree.bulk_insert_leaves (t : UnbalancedMerkleTree)
    (leaf_indices_iter : List Nat) (leaf_hashes_iter : List Output) :
    BulkResult UnbalancedMerkleTree :=
  let leaf_indices := leaf_indices_iter
  if ¬ pairwiseAscending leaf_indices then .rejected
  else
    let resized :=
      match leaf_indices.max? with
      | some max_index =>
        if t.actual_leaves ≤ max_index then
          let new_actual_leaves := max_index + 1
          let new_size := nextPow2 new_actual_leaves * 2
          let tree :=
            if t.tree.length < new_size then
              t.tree ++ List.replicate (new_size - t.tree.length) (t.tree.getD 0 emptyOutput)
            else t.tree
          (tree, new_actual_leaves)
        else (t.tree, t.actual_leaves)
      | none => (t.tree, t.actual_leaves)
    let tree := resized.1
    let actual_leaves := resized.2
    let leaf_start := tree.length / 2
    let tree :=
      (leaf_indices.zip leaf_hashes_iter).foldl
        (fun tr p => tr.set (leaf_start + p.1) p.2) tree
    let fuel := leaf_indices.foldl (· + ·) 0 +
      (leaf_start + 1) * (leaf_indices.length + 1) + 1
    .ok { tree := unbalancedBulkLoop leaf_start actual_leaves fuel tree leaf_indices
          actual_leaves := actual_leaves }

/-! ## Specification-side definitions

These definitions transcribe the *specification's* descriptions (and, for
`leWords8`, the test suite's hash-to-words conversion); the refinement
theorems below compare them with the source-derived definitions above. -/

/-- The G-mix exactly as displayed in the specification (§4.1). -/
def gSpec (v : List Nat) (a b c d mx my : Nat) : List Nat :=
  let v := v.set a (add32 (add32 (v.getD a 0) (v.getD b 0)) mx)
  let v := v.set d (rotr32 (xor32 (v.getD d 0) (v.getD a 0)) 16)
  let v := v.set c (add32 (v.getD c 0) (v.getD d 0))
  let v := v.set b (rotr32 (xor32 (v.getD b 0) (v.getD c 0)) 12)
  let v := v.set a (add32 (add32 (v.getD a 0) (v.getD b 0)) my)
  let v := v.set d (rotr32 (xor32 (v.getD d 0) (v.getD a 0)) 8)
  let v := v.set c (add32 (v.getD c 0) (v.getD d 0))
  let v := v.set b (rotr32 (xor32 (v.getD b 0) (v.getD c 0)) 7)
  v

/-- The specification's fixed order of G-mix positions and message-word
pairs: four columns, then four diagonals. -/
def mixSchedule : List (Nat × Nat × Nat × Nat × Nat × Nat) :=
  [(0, 4, 8, 12, 0, 1), (1, 5, 9, 13, 2, 3), (2, 6, 10, 14, 4, 5), (3, 7, 11, 15, 6, 7),
   (0, 5, 10, 15, 8, 9), (1, 6, 11, 12, 10, 11), (2, 7, 8, 13, 12, 13), (3, 4, 9, 14, 14, 15)]

/-- One round per the specification: the eight G-mixes of `mixSchedule`. -/
def roundSpec (v m : List Nat) : List Nat :=
  mixSchedule.foldl
    (fun s t =>
      gSpec s t.1 t.2.1 t.2.2.1 t.2.2.2.1 (m.getD t.2.2.2.2.1 0) (m.getD t.2.2.2.2.2 0))
    v

/-- The specification's message schedule P. -/
def permuteSpec (m : List Nat) : List Nat :=
  (List.range 16).map fun i =>
    m.getD ([2, 6, 3, 10, 7, 0, 4, 13, 1, 11, 12, 5, 9, 14, 15, 8].getD i 0) 0

/-- The compression function per the specification's description: state
initialized as the chaining value, the first four IV words, the split
counter, block length and flags; six (round, permute) passes followed by a
seventh round with no permutation; then the final fold. -/
def compressSpec (cv m : List Nat) (counter block_len flags : Nat) : List Nat :=
  let state0 : List Nat :=
    [cv.getD 0 0, cv.getD 1 0, cv.getD 2 0, cv.getD 3 0,
     cv.getD 4 0, cv.getD 5 0, cv.getD 6 0, cv.getD 7 0,
     IV.getD 0 0, IV.getD 1 0, IV.getD 2 0, IV.getD 3 0,
     counter % 4294967296, counter / 4294967296 % 4294967296, block_len, flags]
  let rounds :=
    (List.range 6).foldl (fun p _ => (roundSpec p.1 p.2, permuteSpec p.2)) (state0, m)
  let state := roundSpec rounds.1 rounds.2
  (List.range 8).foldl
    (fun s i =>
      let s := s.set i (xor32 (s.getD i 0) (s.getD (i + 8) 0))
      s.set (i + 8) (xor32 (s.getD (i + 8) 0) (cv.getD i 0)))
    state

/-- `root_output_bytes` per the specification's description of claim C3:
64-byte strides, stride `j` being the serialization of the compression with
output-block counter `j` and the ROOT flag, truncated to the requested
length. -/
def rootBytesSpec (o : Output) (outLen : Nat) : List Nat :=
  (((List.range ((outLen + 63) / 64)).map fun j =>
      wordsLEBytes (compress o.input_chaining_value o.block_words j o.block_len
        (Nat.lor o.flags ROOT))).flatten).take outLen

/-- The test suite's conversion of a 32-byte hash to an 8-word chaining
value (little-endian). -/
def leWords8 (bytes : List Nat) : List Nat :=
  (List.range 8).map fun i =>
    bytes.getD (4 * i) 0 + 256 * bytes.getD (4 * i + 1) 0 +
      65536 * bytes.getD (4 * i + 2) 0 + 16777216 * bytes.getD (4 * i + 3) 0

/-- Canonical description of a single chunk's `Output`: a fresh state with
counter `k`, fed the bytes of chunk `k` of `input`. -/
def chunkOut (input : List Nat) (k : Nat) : Output :=
  ((ChunkState.new IV k 0).update ((input.drop (1024 * k)).take 1024)).output

/-- The chaining value of chunk `k`. -/
def chunkCV (input : List Nat) (k : Nat) : List Nat :=
  (chunkOut input k).chaining_value

/-- The complete BLAKE3 subtree `Output` over `2 ^ j` leaves starting at
leaf `t`, for an arbitrary leaf valuation. -/
def nodeOf (leaf : Nat → Output) (t : Nat) : Nat → Output
  | 0 => leaf t
  | j + 1 =>
    parent_output (nodeOf leaf t j).chaining_value
      (nodeOf leaf (t + 2 ^ j) j).chaining_value IV 0

/-- The canonical value of slot `i` of a balanced tree over the leaf list
`os` (of power-of-two length): leaf slots hold the leaves, inner slots the
parent output of their children, slot 0 the sentinel. -/
def canonSlot (os : List Output) (i : Nat) : Output :=
  if i = 0 then emptyOutput
  else if os.length ≤ i then os.getD (i - os.length) emptyOutput
  else
    parent_output (canonSlot os (2 * i)).chaining_value
      (canonSlot os (2 * i + 1)).chaining_value IV 0
termination_by os.length - i
decreasing_by
  · omega
  · omega

/-- The fully recomputed balanced tree over the leaf list `os`. -/
def canonTree (os : List Output) : List Output :=
  (List.range (2 * os.length)).map (canonSlot os)

/-- The chaining-value stack of the streaming hasher after absorbing `m`
completed chunks starting at chunk index `t`, on top of a previous stack. -/
def foldChunks (input : List Nat) (S : List (List Nat)) (t : Nat) : Nat → List (List Nat)
  | 0 => S
  | m + 1 => foldChunks input (addChunkCV IV 0 S (chunkCV input t) (t + 1)) (t + 1) m

/-- The stack shape after `2 ^ k - 1` chunks starting at a `2 ^ k`-aligned
base: the right edge of the complete tree, topmost (head) entry smallest. -/
def onesStack (input : List Nat) (b : Nat) : Nat → List (List Nat)
  | 0 => []
  | k + 1 =>
    onesStack input (b + 2 ^ k) k ++ [(nodeOf (chunkOut input) b k).chaining_value]

/-- The FIFO pairing procedure described by claim C7: dequeue two, combine
with `parent_output`, enqueue, until at most one entry remains. -/
def fifoLoop : Nat → List Output → List Output
  | 0, q => q
  | fuel + 1, a :: b :: rest =>
    fifoLoop fuel (rest ++ [parent_output a.chaining_value b.chaining_value IV 0])
  | _ + 1, q => q

/-- The root produced by the claimed FIFO pairing of the provided leaves. -/
def specFifoRoot (leaves : List Output) : Output :=
  (fifoLoop leaves.length leaves).headD emptyOutput

/-- One level of pairwise combination. -/
def pairReduce : List Output → List Output
  | a :: b :: rest => parent_output a.chaining_value b.chaining_value IV 0 :: pairReduce rest
  | _ => []

/-- Write the canonical values of slots `[a, a + m)` into a node array. -/
def setRange (os : List Output) (a m : Nat) (t : List Output) : List Output :=
  (List.range m).foldl (fun t i => t.set (a + i) (canonSlot os (a + i))) t

/-- Write the canonical values of all levels above a level of `2 ^ r` nodes
starting at slot `s`. -/
def setLevels (os : List Output) : Nat → Nat → List Output → List Output
  | _, 0, t => t
  | s, r + 1, t => setLevels os (s / 2) r (setRange os (s / 2) (2 ^ r) t)

/-- Overwrite positions of a leaf list by an association list. -/
def applyUpdates (os : List Output) (ps : List (Nat × Output)) : List Output :=
  ps.foldl (fun o p => o.set p.1 p.2) os

/-- Slot `j` is a proper ancestor (towards the root, excluding slot 0) of
slot `q` in the 1-indexed heap layout. -/
def properAnc (q j : Nat) : Prop := 1 ≤ j ∧ ∃ m, 1 ≤ m ∧ j = q / 2 ^ m

/-! ## Basic facts about `ChunkState.update` -/

lemma writeBytes_length (b : List Nat) (off : Nat) (bytes : List Nat)
    (hb : off + bytes.length ≤ b.length) :
    (writeBytes b off bytes).length = b.length := by
  simp only [writeBytes, List.length_append, List.length_take, List.length_drop]
  omega

/-- The absorption loop adds exactly the input length to the absorbed byte
count, keeps the block buffer well formed, and does not touch the chunk
counter or the flags. -/
lemma updateLoop_spec (fuel : Nat) : ∀ (s : ChunkState) (input : List Nat),
    input.length ≤ fuel → s.block.length = 64 → s.block_len ≤ 64 →
    (ChunkState.updateLoop fuel s input).len = s.len + input.length ∧
    (ChunkState.updateLoop fuel s input).block.length = 64 ∧
    (ChunkState.updateLoop fuel s input).block_len ≤ 64 ∧
    (ChunkState.updateLoop fuel s input).chunk_counter = s.chunk_counter ∧
    (ChunkState.updateLoop fuel s input).flags = s.flags := by
  induction fuel with
  | zero =>
    intro s input h hb hl
    have h0 : input.length = 0 := by omega
    simp [ChunkState.updateLoop, h0, hb, hl]
  | succ f ih =>
    intro s input h hb hl
    by_cases h0 : input.length = 0
    · simp [ChunkState.updateLoop, h0, hb, hl]
    · rw [ChunkState.updateLoop]
      rw [if_neg h0]
      set s' : ChunkState :=
        if s.block_len = BLOCK_LEN then
          { s with
            chaining_value := first_8_words (compress s.chaining_value
              (wordsFromLEBytes s.block) s.chunk_counter BLOCK_LEN
              (Nat.lor s.flags s.start_flag))
            blocks_compressed := s.blocks_compressed + 1
            block := List.replicate 64 0
            block_len := 0 }
        else s with hs'
      have hs'A : s'.len = s.len := by
        rw [hs']
        by_cases hfull : s.block_len = BLOCK_LEN
        · rw [if_pos hfull]
          simp only [BLOCK_LEN] at hfull
          simp only [ChunkState.len]
          simp
          omega
        · rw [if_neg hfull]
      have hs'B : s'.block.length = 64 := by
        rw [hs']
        by_cases hfull : s.block_len = BLOCK_LEN
        · rw [if_pos hfull]; simp
        · rw [if_neg hfull]; exact hb
      have hs'C : s'.block_len < 64 := by
        rw [hs']
        by_cases hfull : s.block_len = BLOCK_LEN
        · rw [if_pos hfull]; simp
        · rw [if_neg hfull]
          simp only [BLOCK_LEN] at hfull
          omega
      have hs'D : s'.chunk_counter = s.chunk_counter := by
        rw [hs']
        by_cases hfull : s.block_len = BLOCK_LEN
        · rw [if_pos hfull]
        · rw [if_neg hfull]
      have hs'E : s'.flags = s.flags := by
        rw [hs']
        by_cases hfull : s.block_len = BLOCK_LEN
        · rw [if_pos hfull]
        · rw [if_neg hfull]
      set t := min (BLOCK_LEN - s'.block_len) input.length with ht
      have htpos : t ≠ 0 := by
        simp only [ht, BLOCK_LEN]
        omega
      rw [if_neg htpos]
      set s'' : ChunkState :=
        { s' with
          block := writeBytes s'.block s'.block_len (input.take t)
          block_len := s'.block_len + t } with hs''
      have htle : t ≤ 64 - s'.block_len := by
        simp only [ht, BLOCK_LEN]
        omega
      have htlein : t ≤ input.length := by
        simp only [ht]
        omega
      have hbl : s''.block_len = s'.block_len + t := by rw [hs'']
      have hbc : s''.blocks_compressed = s'.blocks_compressed := by rw [hs'']
      have hwb : s''.block.length = 64 := by
        rw [hs'']
        have hlt : (input.take t).length = t := by simp; omega
        refine (writeBytes_length _ _ _ ?_).trans hs'B
        rw [hlt, hs'B]
        omega
      have hrec := ih s'' (input.drop t)
        (by simp; omega) hwb (by rw [hbl]; omega)
      refine ⟨?_, hrec.2.1, hrec.2.2.1, ?_, ?_⟩
      · rw [hrec.1]
        have hsl : s''.len = s'.len + t := by
          simp only [ChunkState.len, hbl, hbc]
          omega
        rw [hsl, hs'A]
        simp only [List.length_drop]
        omega
      · rw [hrec.2.2.2.1]
        have : s''.chunk_counter = s'.chunk_counter := by rw [hs'']
        rw [this, hs'D]
      · rw [hrec.2.2.2.2]
        have : s''.flags = s'.flags := by rw [hs'']
        rw [this, hs'E]

/-- `ChunkState.update` adds exactly the input length to `len` and keeps the
buffer well formed. -/
lemma update_spec (s : ChunkState) (input : List Nat)
    (hb : s.block.length = 64) (hl : s.block_len ≤ 64) :
    (s.update input).len = s.len + input.length ∧
    (s.update input).block.length = 64 ∧
    (s.update input).block_len ≤ 64 ∧
    (s.update input).chunk_counter = s.chunk_counter ∧
    (s.update input).flags = s.flags :=
  updateLoop_spec input.length s input le_rfl hb hl

@[simp] lemma new_len (key : List Nat) (c fl : Nat) : (ChunkState.new key c fl).len = 0 := by
  simp [ChunkState.new, ChunkState.len]

@[simp] lemma new_block_length (key : List Nat) (c fl : Nat) :
    (ChunkState.new key c fl).block.length = 64 := by
  simp [ChunkState.new]

@[simp] lemma new_block_len (key : List Nat) (c fl : Nat) :
    (ChunkState.new key c fl).block_len = 0 := by
  simp [ChunkState.new]

@[simp] lemma new_counter (key : List Nat) (c fl : Nat) :
    (ChunkState.new key c fl).chunk_counter = c := by
  simp [ChunkState.new]

/-! ## Characterizing the chunk-outputs producer -/

lemma processChunksLoop_nil (fuel : Nat) (cs : ChunkState) :
    processChunksLoop fuel cs [] = if 0 < cs.len then [cs.output] else [] := by
  cases fuel with
  | zero => rfl
  | succ f => simp [processChunksLoop]

/-- One loop pass starting from a full chunk state: emit its output, restart
at the next counter, absorb. -/
lemma processChunksLoop_full (fuel : Nat) (cs : ChunkState) (input : List Nat)
    (hfull : cs.len = CHUNK_LEN) (h0 : input.length ≠ 0) :
    processChunksLoop (fuel + 1) cs input =
      cs.output ::
        processChunksLoop fuel
          ((ChunkState.new IV (cs.chunk_counter + 1) 0).update
            (input.take (min 1024 input.length)))
          (input.drop (min 1024 input.length)) := by
  rw [processChunksLoop, if_neg h0, if_pos hfull]
  simp only [new_len, Nat.sub_zero, CHUNK_LEN]
  rw [if_neg (by omega)]
  simp

/-- One loop pass starting from a not-yet-full chunk state: just absorb. -/
lemma processChunksLoop_onePass (fuel : Nat) (cs : ChunkState) (input : List Nat)
    (hlen : cs.len < 1024) (h0 : input.length ≠ 0) :
    processChunksLoop (fuel + 1) cs input =
      processChunksLoop fuel
        (cs.update (input.take (min (1024 - cs.len) input.length)))
        (input.drop (min (1024 - cs.len) input.length)) := by
  rw [processChunksLoop, if_neg h0,
    if_neg (show ¬ cs.len = CHUNK_LEN by simp only [CHUNK_LEN]; omega)]
  simp only [CHUNK_LEN]
  rw [if_neg (by omega)]
  simp

/-- Any sufficient fuel computes the same result as the canonical fuel
`input.length`. -/
lemma processChunksLoop_fuelEq : ∀ (f : Nat) (cs : ChunkState) (input : List Nat),
    input.length ≤ f → cs.block.length = 64 → cs.block_len ≤ 64 → cs.len ≤ 1024 →
    processChunksLoop f cs input = processChunksLoop input.length cs input := by
  intro f
  induction f using Nat.strong_induction_on with
  | _ f ih =>
    intro cs input h hb hl hlen
    cases f with
    | zero =>
      have h0 : input.length = 0 := by omega
      rw [h0]
    | succ f' =>
      by_cases h0 : input.length = 0
      · rw [List.length_eq_zero.mp h0]
        rw [processChunksLoop_nil, processChunksLoop_nil]
      · have hL : input.length = (input.length - 1) + 1 := by omega
        by_cases hfull : cs.len = CHUNK_LEN
        · rw [processChunksLoop_full f' cs input hfull h0]
          conv_rhs => rw [hL]
          rw [processChunksLoop_full (input.length - 1) cs input hfull h0]
          set t := min 1024 input.length with htdef
          have ht1 : 1 ≤ t := by omega
          have ht2 : t ≤ 1024 := by omega
          set cs' := (ChunkState.new IV (cs.chunk_counter + 1) 0).update (input.take t)
            with hcs'
          have hspec := update_spec (ChunkState.new IV (cs.chunk_counter + 1) 0)
            (input.take t) (by simp) (by simp)
          have hlen' : cs'.len ≤ 1024 := by
            rw [hcs', hspec.1]
            simp
            omega
          have hrest : (input.drop t).length ≤ f' := by simp; omega
          have hrest2 : (input.drop t).length ≤ input.length - 1 := by simp; omega
          rw [ih f' (by omega) cs' (input.drop t) hrest hspec.2.1 hspec.2.2.1 hlen']
          rw [ih (input.length - 1) (by omega) cs' (input.drop t) hrest2
            hspec.2.1 hspec.2.2.1 hlen']
        · have hlt : cs.len < 1024 := by
            simp only [CHUNK_LEN] at hfull
            omega
          rw [processChunksLoop_onePass f' cs input hlt h0]
          conv_rhs => rw [hL]
          rw [processChunksLoop_onePass (input.length - 1) cs input hlt h0]
          set t := min (1024 - cs.len) input.length with htdef
          have ht1 : 1 ≤ t := by omega
          have ht2 : t ≤ 1024 - cs.len := by omega
          set cs' := cs.update (input.take t) with hcs'
          have hspec := update_spec cs (input.take t) hb hl
          have hlen' : cs'.len ≤ 1024 := by
            rw [hcs', hspec.1]
            simp
            omega
          have hrest : (input.drop t).length ≤ f' := by simp; omega
          have hrest2 : (input.drop t).length ≤ input.length - 1 := by simp; omega
          rw [ih f' (by omega) cs' (input.drop t) hrest hspec.2.1 hspec.2.2.1 hlen']
          rw [ih (input.length - 1) (by omega) cs' (input.drop t) hrest2
            hspec.2.1 hspec.2.2.1 hlen']

/-- The chunk producer, from a fresh state with counter `c`, yields one
output per 1024-byte chunk of its input, with consecutive counters. -/
lemma processChunks_general : ∀ (L : Nat) (input : List Nat) (c : Nat),
    input.length = L →
    processChunksLoop input.length (ChunkState.new IV c 0) input =
      (List.range ((input.length + 1023) / 1024)).map
        (fun k =>
          ((ChunkState.new IV (c + k) 0).update ((input.drop (1024 * k)).take 1024)).output) := by
  intro L
  induction L using Nat.strong_induction_on with
  | _ L ih =>
    intro input c hL
    by_cases h0 : input.length = 0
    · rw [List.length_eq_zero.mp h0]
      simp [processChunksLoop]
    · have hL1 : input.length = (input.length - 1) + 1 := by omega
      have hfr : (ChunkState.new IV c 0).len < 1024 := by simp
      conv_lhs => rw [hL1]
      rw [processChunksLoop_onePass (input.length - 1) _ input hfr h0]
      simp only [new_len, Nat.sub_zero]
      by_cases hsmall : input.length ≤ 1024
      · have hmin : min 1024 input.length = input.length := by omega
        rw [hmin]
        rw [List.take_length]  -- take input.length input = input
        rw [List.drop_length]
        rw [processChunksLoop_nil]
        have hlen := (update_spec (ChunkState.new IV c 0) input (by simp) (by simp)).1
        rw [if_pos (by rw [hlen]; simp; omega)]
        have hdiv : (input.length + 1023) / 1024 = 1 := by omega
        rw [hdiv]
        simp only [List.range_succ, List.range_zero, List.nil_append, List.map_cons,
          List.map_nil, Nat.mul_zero, List.drop_zero, Nat.add_zero]
        rw [List.take_of_length_le hsmall]
      · have hmin : min 1024 input.length = 1024 := by omega
        rw [hmin]
        set cs1 := (ChunkState.new IV c 0).update (input.take 1024) with hcs1
        have hspec := update_spec (ChunkState.new IV c 0) (input.take 1024)
          (by simp) (by simp)
        have hfull : cs1.len = CHUNK_LEN := by
          rw [hcs1, hspec.1]
          simp [CHUNK_LEN]
          omega
        have hcnt : cs1.chunk_counter = c := by rw [hcs1, hspec.2.2.2.1]; simp
        set rest := input.drop 1024 with hrest
        have hrlen : rest.length = input.length - 1024 := by simp [hrest]
        have hr0 : rest.length ≠ 0 := by omega
        have hr1 : rest.length = (rest.length - 1) + 1 := by omega
        -- canonicalize the fuel, then step the full state
        rw [processChunksLoop_fuelEq (input.length - 1) cs1 rest (by omega)
          hspec.2.1 hspec.2.2.1 (le_of_eq (hfull.trans rfl))]
        conv_lhs => rw [hr1]
        rw [processChunksLoop_full (rest.length - 1) cs1 rest hfull hr0]
        rw [hcnt]
        -- fold the tail back into a canonical fresh-state run on `rest`
        have hback := processChunksLoop_onePass (rest.length - 1)
          (ChunkState.new IV (c + 1) 0) rest (by simp) hr0
        simp only [new_len, Nat.sub_zero] at hback
        rw [← hr1] at hback
        rw [← hback]
        rw [ih rest.length (by omega) rest (c + 1) rfl]
        -- compare the two maps
        have hdiv : (input.length + 1023) / 1024 = (rest.length + 1023) / 1024 + 1 := by
          omega
        rw [hdiv, List.range_succ_eq_map]
        simp only [List.map_cons, List.map_map]
        congr 1
        apply List.map_congr_left
        intro k _
        simp only [Function.comp_apply]
        have h1 : c + 1 + k = c + Nat.succ k := by omega
        have h2 : rest.drop (1024 * k) = input.drop (1024 * Nat.succ k) := by
          rw [hrest, List.drop_drop]
          congr 1
          omega
        rw [h1, h2]

/-- The chunk producer emits exactly `ceil (N / 1024)` outputs, the k-th
being chunk k's output. -/
lemma process_input_to_chunks_eq (input : List Nat) :
    process_input_to_chunks input =
      (List.range ((input.length + 1023) / 1024)).map (chunkOut input) := by
  rw [process_input_to_chunks, processChunks_general input.length input 0 rfl]
  apply List.map_congr_left
  intro k _
  simp [chunkOut]

/-! ## The compression function versus its specification -/

lemma gSpec_eq_g (v : List Nat) (a b c d mx my : Nat) :
    gSpec v a b c d mx my = g v a b c d mx my := rfl

lemma permuteSpec_eq (m : List Nat) : permuteSpec m = permute m := rfl

lemma roundSpec_eq (v m : List Nat) : roundSpec v m = roundFn v m := by
  simp only [roundSpec, mixSchedule, List.foldl_cons, List.foldl_nil, gSpec_eq_g, roundFn]

lemma g_length (s : List Nat) (a b c d mx my : Nat) : (g s a b c d mx my).length = s.length := by
  simp [g]

lemma roundFn_length (s m : List Nat) : (roundFn s m).length = s.length := by
  simp [roundFn, g_length]

lemma compress_length (cv m : List Nat) (c bl fl : Nat) :
    (compress cv m c bl fl).length = 16 := by
  have h8 : List.range 8 = [0, 1, 2, 3, 4, 5, 6, 7] := rfl
  simp only [compress, h8, List.foldl_cons, List.foldl_nil]
  simp [List.length_set, roundFn_length]

lemma chaining_value_length (o : Output) : o.chaining_value.length = 8 := by
  simp [Output.chaining_value, first_8_words, compress_length]

lemma xor32_lt (a b : Nat) : xor32 a b < 4294967296 :=
  Nat.xor_lt_two_pow (n := 32) (Nat.mod_lt _ (by norm_num)) (Nat.mod_lt _ (by norm_num))

lemma getD_set_eq {α : Type} (l : List α) (i : Nat) (v d : α) (h : i < l.length) :
    (l.set i v).getD i d = v := by
  simp [List.getD_eq_getElem?_getD, List.getElem?_set_self h]

lemma getD_set_ne {α : Type} (l : List α) (i j : Nat) (v d : α) (h : i ≠ j) :
    (l.set i v).getD j d = l.getD j d := by
  simp [List.getD_eq_getElem?_getD, List.getElem?_set_ne h]

lemma foldl_set2_length (cv : List Nat) : ∀ (l : List Nat) (s : List Nat),
    (List.foldl (fun s i =>
      let s := s.set i (xor32 (s.getD i 0) (s.getD (i + 8) 0))
      s.set (i + 8) (xor32 (s.getD (i + 8) 0) (cv.getD i 0))) s l).length = s.length := by
  intro l
  induction l with
  | nil => intro s; rfl
  | cons a l ih =>
    intro s
    rw [List.foldl_cons, ih]
    simp

/-- Each of the first eight positions written by the compression's final
fold holds a 32-bit XOR value. -/
lemma foldl_set2_getD (cv : List Nat) : ∀ (l : List Nat) (s : List Nat) (k : Nat),
    k < 8 → s.length = 16 → k ∈ l → (∀ i ∈ l, i < 8) →
    ∃ a b, (List.foldl (fun s i =>
      let s := s.set i (xor32 (s.getD i 0) (s.getD (i + 8) 0))
      s.set (i + 8) (xor32 (s.getD (i + 8) 0) (cv.getD i 0))) s l).getD k 0 = xor32 a b := by
  intro l
  induction l using List.reverseRecOn with
  | nil => intro s k _ _ hk; simp at hk
  | append_singleton l a ih =>
    intro s k hk8 hs hkmem hmem8
    rw [List.foldl_append, List.foldl_cons, List.foldl_nil]
    set t := List.foldl (fun s i =>
      let s := s.set i (xor32 (s.getD i 0) (s.getD (i + 8) 0))
      s.set (i + 8) (xor32 (s.getD (i + 8) 0) (cv.getD i 0))) s l with hT
    have htlen : t.length = 16 := by rw [hT, foldl_set2_length, hs]
    have ha8 : a < 8 := hmem8 a (by simp)
    have hne : a + 8 ≠ k := by omega
    rw [getD_set_ne _ _ _ _ _ hne]
    by_cases hka : k = a
    · subst hka
      exact ⟨t.getD k 0, t.getD (k + 8) 0,
        getD_set_eq t k (xor32 (t.getD k 0) (t.getD (k + 8) 0)) 0 (by rw [htlen]; omega)⟩
    · rw [getD_set_ne _ _ _ _ _ (fun h => hka h.symm)]
      refine ih s k hk8 hs ?_ (fun i hi => hmem8 i (List.mem_append_left _ hi))
      rcases List.mem_append.mp hkmem with h | h
      · exact h
      · simp at h
        omega

/-- Every word of a chaining value is a 32-bit value. -/
lemma chaining_value_lt (o : Output) : ∀ x ∈ o.chaining_value, x < 4294967296 := by
  intro x hx
  rw [Output.chaining_value, first_8_words] at hx
  obtain ⟨k, hklt, hkx⟩ := List.getElem_of_mem hx
  have hk8 : k < 8 := by
    have := List.length_take_le 8 (compress o.input_chaining_value o.block_words
      o.counter o.block_len o.flags)
    have h2 := hklt
    simp [compress_length] at h2
    omega
  have hcw : (compress o.input_chaining_value o.block_words o.counter o.block_len
      o.flags).getD k 0 = x := by
    rw [List.getD_eq_getElem?_getD]
    rw [← List.getElem?_take_of_lt (by omega : k < 8)]
    rw [List.getElem?_eq_getElem hklt]
    simp [hkx]
  have : ∃ a b, (compress o.input_chaining_value o.block_words o.counter o.block_len
      o.flags).getD k 0 = xor32 a b := by
    simp only [compress]
    exact foldl_set2_getD _ _ _ k hk8 (by simp [roundFn_length])
      (by simp; omega) (by intro i hi; simp at hi; omega)
  obtain ⟨a, b, hab⟩ := this
  rw [hcw] at hab
  rw [hab]
  exact xor32_lt a b

/-- C2: the source's compression function coincides, on every input, with
the reference BLAKE3 compression as described by the specification
(initial state layout, seven rounds of eight G-mixes with the fixed message
permutation between rounds and none after round 7, wrapping additions,
circular right rotations, and the final fold). -/
theorem c2_compress_matches_reference_spec (cv m : List Nat)
    (counter block_len flags : Nat) :
    compress cv m counter block_len flags = compressSpec cv m counter block_len flags := by
  have h6 : List.range 6 = [0, 1, 2, 3, 4, 5] := rfl
  simp only [compress, compressSpec, h6, List.foldl_cons, List.foldl_nil,
    roundSpec_eq, permuteSpec_eq]

/-! ## `root_output_bytes` versus its specification -/

lemma rootOutputLoop_zero (o : Output) (blocks j : Nat) :
    rootOutputLoop o blocks j 0 = [] := by
  cases blocks <;> simp [rootOutputLoop]

lemma wordsLEBytes_cons (w : Nat) (ws : List Nat) :
    wordsLEBytes (w :: ws) = wordLEBytes w ++ wordsLEBytes ws := by
  simp [wordsLEBytes]

lemma wordsLEBytes_length (ws : List Nat) : (wordsLEBytes ws).length = 4 * ws.length := by
  induction ws with
  | nil => rfl
  | cons w ws ih =>
    rw [wordsLEBytes_cons]
    simp only [List.length_append, ih, List.length_cons]
    simp [wordLEBytes]
    omega

lemma rootStrideBytes_length (o : Output) (j : Nat) :
    (o.rootStrideBytes j).length = 64 := by
  simp [Output.rootStrideBytes, wordsLEBytes_length, compress_length]

lemma rootOutputLoop_spec (o : Output) : ∀ (blocks j rem : Nat), rem ≤ 64 * blocks →
    rootOutputLoop o blocks j rem =
      (((List.range ((rem + 63) / 64)).map fun i => o.rootStrideBytes (j + i)).flatten).take
        rem := by
  intro blocks
  induction blocks with
  | zero =>
    intro j rem h
    have h0 : rem = 0 := by omega
    subst h0
    simp [rootOutputLoop]
  | succ b ih =>
    intro j rem h
    by_cases h0 : rem = 0
    · subst h0
      simp [rootOutputLoop]
    · rw [rootOutputLoop, if_neg h0]
      by_cases hle : rem ≤ 64
      · have hmin : min 64 rem = rem := by omega
        rw [hmin, Nat.sub_self, rootOutputLoop_zero, List.append_nil]
        have hdiv : (rem + 63) / 64 = 1 := by omega
        rw [hdiv]
        have h1 : List.range 1 = [0] := rfl
        rw [h1]
        simp
      · have hmin : min 64 rem = 64 := by omega
        rw [hmin]
        rw [ih (j + 1) (rem - 64) (by omega)]
        have hdiv : (rem + 63) / 64 = ((rem - 64) + 63) / 64 + 1 := by omega
        rw [hdiv, List.range_succ_eq_map]
        simp only [List.map_cons, List.map_map, List.flatten_cons, Nat.add_zero]
        rw [List.take_append_eq_append_take]
        have e1 : (o.rootStrideBytes j).take 64 = o.rootStrideBytes j :=
          List.take_of_length_le (by rw [rootStrideBytes_length])
        have e2 : (o.rootStrideBytes j).take rem = o.rootStrideBytes j :=
          List.take_of_length_le (by rw [rootStrideBytes_length]; omega)
        rw [e1, e2, rootStrideBytes_length]
        have hmaps : (List.range (((rem - 64) + 63) / 64)).map
              (fun i => o.rootStrideBytes (j + 1 + i)) =
            (List.range (((rem - 64) + 63) / 64)).map
              ((fun i => o.rootStrideBytes (j + i)) ∘ Nat.succ) := by
          apply List.map_congr_left
          intro i _
          simp only [Function.comp_apply]
          have hidx : j + 1 + i = j + Nat.succ i := by omega
          rw [hidx]
        rw [hmaps]

/-- The output loop never reads the record's own `counter` field. -/
lemma rootOutputLoop_counter (o : Output) (c : Nat) : ∀ (blocks j rem : Nat),
    rootOutputLoop { o with counter := c } blocks j rem = rootOutputLoop o blocks j rem := by
  intro blocks
  induction blocks with
  | zero => intro j rem; rfl
  | succ b ih =>
    intro j rem
    rw [rootOutputLoop, rootOutputLoop]
    by_cases h0 : rem = 0
    · simp [h0]
    · rw [if_neg h0, if_neg h0]
      have hstr : Output.rootStrideBytes { o with counter := c } j =
          o.rootStrideBytes j := rfl
      rw [hstr, ih (j + 1) (rem - min 64 rem)]

/-- C3: `root_output_bytes` fills the output in 64-byte strides, stride `j`
being the word-by-word little-endian serialization of the compression at
output-block counter `j` with the ROOT flag set, truncated to the requested
length; the record's own `counter` field never enters any stride, so the
produced bytes are independent of it (and the record itself, being passed
by shared reference in the source, is unchanged). -/
theorem c3_root_output_bytes_strides (o : Output) (outLen : Nat) :
    o.root_output_bytes outLen = rootBytesSpec o outLen ∧
    ∀ c, Output.root_output_bytes { o with counter := c } outLen =
      o.root_output_bytes outLen := by
  constructor
  · rw [Output.root_output_bytes, rootOutputLoop_spec o outLen 0 outLen (by omega),
      rootBytesSpec]
    simp only [Nat.zero_add]
    rfl
  · intro c
    rw [Output.root_output_bytes, Output.root_output_bytes, rootOutputLoop_counter]

/-- C6: `process_input_to_chunks` returns exactly `ceil (N / 1024)` Output
records, the k-th being the `output()` of a fresh
`ChunkState (key = IV, counter = k, base_flags = 0)` fed exactly the bytes
`[k * 1024, min ((k + 1) * 1024, N))`; the empty input yields the empty
sequence (the `k = 0` instance of the range being empty). -/
theorem c6_process_input_to_chunks_per_chunk :
    (∀ input : List Nat,
      process_input_to_chunks input =
        (List.range ((input.length + 1023) / 1024)).map
          (fun k => ((ChunkState.new IV k 0).update
            ((input.drop (1024 * k)).take 1024)).output)) ∧
    process_input_to_chunks ([] : List Nat) = [] := by
  constructor
  · intro input
    rw [process_input_to_chunks_eq]
    rfl
  · rfl

/-! ## Bulk insertion: rejection and the empty-index panic -/

/-- The source's inline sortedness check, for a nonempty index list, accepts
exactly the strictly ascending lists. -/
lemma isSortedCheck_iff (l : List Nat) :
    (((List.range (l.length - 1)).all fun i => decide (l.getD i 0 < l.getD (i + 1) 0)) = true)
      ↔ List.Chain' (· < ·) l := by
  rw [List.all_eq_true, List.chain'_iff_get]
  constructor
  · intro h i hi
    have h2 := h i (List.mem_range.mpr hi)
    simp only [decide_eq_true_eq] at h2
    simp only [List.get_eq_getElem]
    rwa [List.getD_eq_getElem l 0 (by omega), List.getD_eq_getElem l 0 (by omega)] at h2
  · intro h i hi
    have hi' := List.mem_range.mp hi
    simp only [decide_eq_true_eq]
    have h2 := h i (by omega)
    simp only [List.get_eq_getElem] at h2
    rwa [List.getD_eq_getElem l 0 (by omega), List.getD_eq_getElem l 0 (by omega)]

/-- Offsetting every index by a constant preserves strict ascent. -/
lemma chain'_map_add (l : List Nat) (c : Nat) :
    List.Chain' (· < ·) (l.map (· + c)) ↔ List.Chain' (· < ·) l := by
  rw [List.chain'_map]
  constructor
  · exact fun h => h.imp (fun _ _ hab => by omega)
  · exact fun h => h.imp (fun _ _ hab => by omega)

/-- C4: on a non-empty index sequence that is not strictly ascending (after
the offset by the leaf capacity), `bulk_insert_leaves` rejects the call; in
the source the ordering check precedes every write, and here rejection is a
result constructor carrying no tree, so the caller's tree is untouched. -/
theorem c4_bulk_insert_unsorted_rejected (t : BinaryMerkleTree) (idxs : List Nat)
    (outs : List Output) (hne : idxs ≠ [])
    (hnsorted : ¬ List.Chain' (· < ·) idxs) :
    t.bulk_insert_leaves idxs outs = .rejected := by
  rw [BinaryMerkleTree.bulk_insert_leaves]
  rw [if_neg (by simp; exact hne)]
  rw [if_pos]
  intro hall
  exact hnsorted ((chain'_map_add idxs t.num_leaves).mp ((isSortedCheck_iff _).mp hall))

/-- Witness for C4 at a concrete tree and index list. -/
theorem c4_bulk_insert_unsorted_rejected_witness :
    ([1, 0] ≠ ([] : List Nat)) ∧ (¬ List.Chain' (· < ·) [1, 0]) ∧
      (BinaryMerkleTree.new_empty 2).bulk_insert_leaves [1, 0]
        [emptyOutput, emptyOutput] = .rejected :=
  ⟨by decide, by simp [List.chain'_cons],
    c4_bulk_insert_unsorted_rejected (BinaryMerkleTree.new_empty 2) [1, 0]
      [emptyOutput, emptyOutput] (by decide) (by simp [List.chain'_cons])⟩

lemma bulkLoop_nil (fuel : Nat) (tree : List Output) :
    bulkLoop fuel tree [] = tree := by
  cases fuel <;> rfl

lemma unbalancedBulkLoop_nil (ls al fuel : Nat) (tree : List Output) :
    unbalancedBulkLoop ls al fuel tree [] = tree := by
  cases fuel <;> rfl

/-- C10: calling the balanced tree's `bulk_insert_leaves` with an empty
index iterator panics (the sortedness check evaluates
`0 .. leaf_indices.len() - 1` on a length-0 vector: an unsigned underflow,
or an out-of-bounds index after wrapping), rather than returning success or
rejection; the unbalanced variant's `windows(2)`-based check accepts the
empty sequence and returns success with the tree unchanged. -/
theorem c10_bulk_insert_empty_indices :
    (∀ (t : BinaryMerkleTree) (outs : List Output),
      t.bulk_insert_leaves [] outs = .panicked) ∧
    (∀ (u : UnbalancedMerkleTree) (outs : List Output),
      u.bulk_insert_leaves [] outs = .ok u) := by
  constructor
  · intro t outs
    rw [BinaryMerkleTree.bulk_insert_leaves]
    simp
  · intro u outs
    rw [UnbalancedMerkleTree.bulk_insert_leaves]
    rw [if_neg (by simp [pairwiseAscending])]
    simp only [List.max?_nil, List.zip_nil_left, List.foldl_nil, unbalancedBulkLoop_nil]

/-! ## The streaming hasher: stack characterization -/

lemma addChunkLoop_fuelEq (key : List Nat) (fl : Nat) : ∀ (f : Nat) (S : List (List Nat))
    (cv : List Nat) (total : Nat), total ≤ f →
    addChunkLoop key fl f S cv total = addChunkLoop key fl total S cv total := by
  intro f
  induction f using Nat.strong_induction_on with
  | _ f ih =>
    intro S cv total h
    cases f with
    | zero =>
      have h0 : total = 0 := by omega
      rw [h0]
    | succ f' =>
      cases total with
      | zero =>
        rw [addChunkLoop]
        simp [addChunkLoop]
      | succ t =>
        rw [addChunkLoop]
        conv_rhs => rw [addChunkLoop]
        by_cases hc : (t + 1) % 2 = 0 ∧ t + 1 ≠ 0
        · rw [if_pos hc, if_pos hc]
          rw [ih f' (by omega) _ _ _ (by omega)]
          rw [ih t (by omega) _ _ _ (by omega)]
        · rw [if_neg hc, if_neg hc]

lemma addChunkCV_odd (key : List Nat) (fl : Nat) (S : List (List Nat)) (cv : List Nat)
    (total : Nat) (h : total % 2 = 1) :
    addChunkCV key fl S cv total = cv :: S := by
  rw [addChunkCV]
  cases total with
  | zero => simp at h
  | succ t =>
    rw [addChunkLoop, if_neg (by omega)]

lemma addChunkCV_even (key : List Nat) (fl : Nat) (S : List (List Nat)) (x cv : List Nat)
    (total : Nat) (h0 : total ≠ 0) (h : total % 2 = 0) :
    addChunkCV key fl (x :: S) cv total =
      addChunkCV key fl S (parent_cv x cv key fl) (total / 2) := by
  rw [addChunkCV, addChunkCV]
  cases total with
  | zero => omega
  | succ t =>
    rw [addChunkLoop, if_pos ⟨h, h0⟩]
    simp only [List.tail_cons, List.headD_cons]
    exact addChunkLoop_fuelEq key fl t S _ ((t + 1) / 2) (by omega)

lemma hasherLoop_nil (fuel : Nat) (h : Blake3Hasher) :
    Blake3Hasher.updateLoop fuel h [] = h := by
  cases fuel with
  | zero => rfl
  | succ f => simp [Blake3Hasher.updateLoop]

/-- One update pass with a not-yet-full current chunk: just absorb. -/
lemma hasherLoop_onePass (fuel : Nat) (h : Blake3Hasher) (input : List Nat)
    (hlen : h.chunk_state.len < 1024) (h0 : input.length ≠ 0) :
    Blake3Hasher.updateLoop (fuel + 1) h input =
      Blake3Hasher.updateLoop fuel
        { h with chunk_state := (h.chunk_state.update
            (input.take (min (1024 - h.chunk_state.len) input.length))) }
        (input.drop (min (1024 - h.chunk_state.len) input.length)) := by
  rw [Blake3Hasher.updateLoop, if_neg h0,
    if_neg (show ¬ h.chunk_state.len = CHUNK_LEN by simp only [CHUNK_LEN]; omega)]
  simp only [CHUNK_LEN]
  rw [if_neg (by omega)]

/-- One update pass with a full current chunk: push its chaining value onto
the stack, restart the chunk state at the next counter, absorb. -/
lemma hasherLoop_full (fuel : Nat) (h : Blake3Hasher) (input : List Nat)
    (hfull : h.chunk_state.len = CHUNK_LEN) (h0 : input.length ≠ 0) :
    Blake3Hasher.updateLoop (fuel + 1) h input =
      Blake3Hasher.updateLoop fuel
        { h with
          cv_stack := (addChunkCV h.key_words h.flags h.cv_stack
            h.chunk_state.output.chaining_value (h.chunk_state.chunk_counter + 1))
          chunk_state := ((ChunkState.new h.key_words (h.chunk_state.chunk_counter + 1)
            h.flags).update (input.take (min 1024 input.length))) }
        (input.drop (min 1024 input.length)) := by
  rw [Blake3Hasher.updateLoop, if_neg h0, if_pos hfull]
  simp only [new_len, Nat.sub_zero, CHUNK_LEN]
  rw [if_neg (by omega)]

/-- Any sufficient fuel computes the same hasher as the canonical fuel. -/
lemma hasherLoop_fuelEq : ∀ (f : Nat) (h : Blake3Hasher) (input : List Nat),
    input.length ≤ f → h.chunk_state.block.length = 64 → h.chunk_state.block_len ≤ 64 →
    h.chunk_state.len ≤ 1024 →
    Blake3Hasher.updateLoop f h input = Blake3Hasher.updateLoop input.length h input := by
  intro f
  induction f using Nat.strong_induction_on with
  | _ f ih =>
    intro h input hf hb hl hlen
    cases f with
    | zero =>
      have h0 : input.length = 0 := by omega
      rw [h0]
    | succ f' =>
      by_cases h0 : input.length = 0
      · rw [List.length_eq_zero.mp h0, hasherLoop_nil, hasherLoop_nil]
      · have hL : input.length = (input.length - 1) + 1 := by omega
        by_cases hfull : h.chunk_state.len = CHUNK_LEN
        · rw [hasherLoop_full f' h input hfull h0]
          conv_rhs => rw [hL]
          rw [hasherLoop_full (input.length - 1) h input hfull h0]
          set t := min 1024 input.length with htdef
          have ht1 : 1 ≤ t := by omega
          set cs' := (ChunkState.new h.key_words (h.chunk_state.chunk_counter + 1)
            h.flags).update (input.take t) with hcs'
          have hspec := update_spec (ChunkState.new h.key_words
            (h.chunk_state.chunk_counter + 1) h.flags) (input.take t) (by simp) (by simp)
          have hlen' : cs'.len ≤ 1024 := by
            rw [hcs', hspec.1]
            simp
            omega
          set h' : Blake3Hasher := { h with
            cv_stack := (addChunkCV h.key_words h.flags h.cv_stack
              h.chunk_state.output.chaining_value (h.chunk_state.chunk_counter + 1))
            chunk_state := cs' } with hh'
          have hb' : h'.chunk_state.block.length = 64 := hspec.2.1
          have hl' : h'.chunk_state.block_len ≤ 64 := hspec.2.2.1
          have hlen'' : h'.chunk_state.len ≤ 1024 := hlen'
          rw [ih f' (by omega) h' (input.drop t) (by simp; omega) hb' hl' hlen'']
          rw [ih (input.length - 1) (by omega) h' (input.drop t) (by simp; omega)
            hb' hl' hlen'']
        · have hlt : h.chunk_state.len < 1024 := by
            simp only [CHUNK_LEN] at hfull
            omega
          rw [hasherLoop_onePass f' h input hlt h0]
          conv_rhs => rw [hL]
          rw [hasherLoop_onePass (input.length - 1) h input hlt h0]
          set t := min (1024 - h.chunk_state.len) input.length with htdef
          have ht1 : 1 ≤ t := by omega
          have ht2 : t ≤ 1024 - h.chunk_state.len := by omega
          set cs' := h.chunk_state.update (input.take t) with hcs'
          have hspec := update_spec h.chunk_state (input.take t) hb hl
          have hlen' : cs'.len ≤ 1024 := by
            rw [hcs', hspec.1]
            simp
            omega
          set h' : Blake3Hasher := { h with chunk_state := cs' } with hh'
          have hb' : h'.chunk_state.block.length = 64 := hspec.2.1
          have hl' : h'.chunk_state.block_len ≤ 64 := hspec.2.2.1
          have hlen'' : h'.chunk_state.len ≤ 1024 := hlen'
          rw [ih f' (by omega) h' (input.drop t) (by simp; omega) hb' hl' hlen'']
          rw [ih (input.length - 1) (by omega) h' (input.drop t) (by simp; omega)
            hb' hl' hlen'']

/-- Absorbing `m` whole chunks, starting at chunk boundary `j` of the byte
sequence `B`: the last chunk is held in the chunk state, the earlier ones
are folded into the stack. -/
lemma hasher_update_chunksAux (B : List Nat) : ∀ (m j : Nat) (S : List (List Nat)),
    B.length = 1024 * (j + m) → 1 ≤ m →
    Blake3Hasher.updateLoop (B.drop (1024 * j)).length
        ⟨ChunkState.new IV j 0, IV, S, 0⟩ (B.drop (1024 * j)) =
      ⟨(ChunkState.new IV (j + m - 1) 0).update ((B.drop (1024 * (j + m - 1))).take 1024),
        IV, foldChunks B S j (m - 1), 0⟩ := by
  intro m
  induction m with
  | zero => intro j S _ hm; omega
  | succ m ih =>
    intro j S hB _
    set input := B.drop (1024 * j) with hinput
    have hIL : input.length = 1024 * (m + 1) := by
      rw [hinput]
      simp
      omega
    have h0 : input.length ≠ 0 := by omega
    have hL : input.length = (input.length - 1) + 1 := by omega
    conv_lhs => rw [hL]
    rw [hasherLoop_onePass (input.length - 1) _ input (by simp) h0]
    simp only [new_len, Nat.sub_zero]
    have hmin : min 1024 input.length = 1024 := by omega
    rw [hmin]
    cases m with
    | zero =>
      have hdone : input.drop 1024 = [] := by
        apply List.length_eq_zero.mp
        simp
        omega
      rw [hdone, hasherLoop_nil]
      have hj : j + (0 + 1) - 1 = j := by omega
      rw [hj]
      have hfold0 : foldChunks B S j (0 + 1 - 1) = S := rfl
      rw [hfold0, hinput]
    | succ m' =>
      set h1cs := (ChunkState.new IV j 0).update (input.take 1024) with hh1cs
      have hspec := update_spec (ChunkState.new IV j 0) (input.take 1024) (by simp) (by simp)
      have hfull : h1cs.len = CHUNK_LEN := by
        rw [hh1cs, hspec.1]
        simp [CHUNK_LEN]
        omega
      have hcnt : h1cs.chunk_counter = j := by rw [hh1cs, hspec.2.2.2.1]; simp
      set rest := input.drop 1024 with hrest
      have hrlen : rest.length = 1024 * (m' + 1) := by
        rw [hrest]
        simp
        omega
      have hr0 : rest.length ≠ 0 := by omega
      have hr1 : rest.length = (rest.length - 1) + 1 := by omega
      rw [hasherLoop_fuelEq (input.length - 1) _ rest (by omega) hspec.2.1 hspec.2.2.1
        (le_of_eq hfull)]
      conv_lhs => rw [hr1]
      rw [hasherLoop_full (rest.length - 1) _ rest hfull hr0]
      simp only [hcnt]
      -- fold the tail back into a canonical run from a fresh state
      have hback := hasherLoop_onePass (rest.length - 1)
        ⟨ChunkState.new IV (j + 1) 0, IV,
          addChunkCV IV 0 S h1cs.output.chaining_value (j + 1), 0⟩ rest (by simp) hr0
      simp only [new_len, Nat.sub_zero] at hback
      rw [← hr1] at hback
      rw [← hback]
      have hrestdrop : rest = B.drop (1024 * (j + 1)) := by
        rw [hrest, hinput, List.drop_drop]
        have harith : 1024 * j + 1024 = 1024 * (j + 1) := by ring
        rw [harith]
      rw [hrestdrop]
      rw [ih (j + 1) (addChunkCV IV 0 S h1cs.output.chaining_value (j + 1))
        (by omega) (by omega)]
      have hcv : h1cs.output.chaining_value = chunkCV B j := by
        rw [hh1cs, hinput, chunkCV, chunkOut]
      rw [hcv]
      have hidx : j + 1 + (m' + 1) - 1 = j + (m' + 1 + 1) - 1 := by omega
      have hfold : foldChunks B (addChunkCV IV 0 S (chunkCV B j) (j + 1)) (j + 1) (m' + 1 - 1)
          = foldChunks B S j (m' + 1 + 1 - 1) := rfl
      rw [hidx, hfold]

/-- The hasher after absorbing a whole-chunk input of `n` chunks. -/
lemma hasher_new_update (B : List Nat) (n : Nat) (hn : 1 ≤ n)
    (hB : B.length = 1024 * n) :
    Blake3Hasher.new.update B =
      ⟨(ChunkState.new IV (n - 1) 0).update ((B.drop (1024 * (n - 1))).take 1024), IV,
        foldChunks B [] 0 (n - 1), 0⟩ := by
  have h := hasher_update_chunksAux B n 0 [] (by omega) hn
  simp only [Nat.mul_zero, List.drop_zero, Nat.zero_add] at h
  rw [Blake3Hasher.update]
  exact h

/-! ## The merge lemma and the right-edge stack shape -/

lemma foldChunks_add (B : List Nat) : ∀ (a : Nat) (S : List (List Nat)) (t b : Nat),
    foldChunks B S t (a + b) = foldChunks B (foldChunks B S t a) (t + a) b := by
  intro a
  induction a with
  | zero => intro S t b; simp [foldChunks]
  | succ a ih =>
    intro S t b
    have h1 : a + 1 + b = (a + b) + 1 := by omega
    rw [h1]
    simp only [foldChunks]
    rw [ih]
    have h2 : t + 1 + a = t + (a + 1) := by omega
    rw [h2]

/-- The merge lemma: absorbing an aligned block of `2 ^ j` chunks acts on
the stack exactly as pushing the complete subtree's chaining value with the
block-granular total. -/
lemma foldChunks_pow (B : List Nat) : ∀ (j t : Nat) (S : List (List Nat)), 2 ^ j ∣ t →
    foldChunks B S t (2 ^ j) =
      addChunkCV IV 0 S (nodeOf (chunkOut B) t j).chaining_value (t / 2 ^ j + 1) := by
  intro j
  induction j with
  | zero =>
    intro t S _
    rw [pow_zero]
    simp only [foldChunks]
    rw [Nat.div_one]
    rfl
  | succ j ih =>
    intro t S hdvd
    obtain ⟨k, hk⟩ := hdvd
    have hsplit : 2 ^ (j + 1) = 2 ^ j + 2 ^ j := by
      rw [pow_succ]
      omega
    conv_lhs => rw [hsplit, foldChunks_add]
    have hdvd1 : 2 ^ j ∣ t := ⟨2 * k, by rw [hk, pow_succ]; ring⟩
    have htj : t / 2 ^ j = 2 * k := by
      rw [hk, pow_succ]
      rw [show 2 ^ j * 2 * k = 2 ^ j * (2 * k) by ring]
      exact Nat.mul_div_cancel_left _ (Nat.pos_pow_of_pos j (by norm_num))
    rw [ih t S hdvd1, htj]
    rw [addChunkCV_odd IV 0 S _ (2 * k + 1) (by omega)]
    have hdvd2 : 2 ^ j ∣ t + 2 ^ j := Dvd.dvd.add hdvd1 dvd_rfl
    rw [ih (t + 2 ^ j) _ hdvd2]
    clear hsplit
    have htj2 : (t + 2 ^ j) / 2 ^ j = 2 * k + 1 := by
      rw [Nat.add_div_right _ (Nat.pos_pow_of_pos j (by norm_num)), htj]
    rw [htj2]
    rw [addChunkCV_even IV 0 S _ _ (2 * k + 1 + 1) (by omega) (by omega)]
    have htj3 : (2 * k + 1 + 1) / 2 = k + 1 := by omega
    have htj4 : t / 2 ^ (j + 1) = k := by
      rw [hk]
      exact Nat.mul_div_cancel_left _ (Nat.pos_pow_of_pos (j + 1) (by norm_num))
    rw [htj3, htj4]
    rfl

/-- The stack after `2 ^ k - 1` chunks from an aligned base is the right
edge of the complete tree. -/
lemma foldChunks_ones (B : List Nat) : ∀ (k b : Nat) (S : List (List Nat)), 2 ^ k ∣ b →
    foldChunks B S b (2 ^ k - 1) = onesStack B b k ++ S := by
  intro k
  induction k with
  | zero =>
    intro b S _
    simp [foldChunks, onesStack]
  | succ k ih =>
    intro b S hdvd
    obtain ⟨q, hq⟩ := hdvd
    have hdvd1 : 2 ^ k ∣ b := ⟨2 * q, by rw [hq, pow_succ]; ring⟩
    have hsplit : 2 ^ (k + 1) - 1 = 2 ^ k + (2 ^ k - 1) := by
      have := Nat.pos_pow_of_pos k (show 0 < 2 by norm_num)
      rw [pow_succ]
      omega
    conv_lhs => rw [hsplit, foldChunks_add]
    rw [foldChunks_pow B k b S hdvd1]
    have hbj : b / 2 ^ k = 2 * q := by
      rw [hq, pow_succ]
      rw [show 2 ^ k * 2 * q = 2 ^ k * (2 * q) by ring]
      exact Nat.mul_div_cancel_left _ (Nat.pos_pow_of_pos k (by norm_num))
    rw [hbj, addChunkCV_odd IV 0 S _ (2 * q + 1) (by omega)]
    rw [ih (b + 2 ^ k) _ (dvd_add hdvd1 dvd_rfl)]
    rw [onesStack]
    simp

/-! ## Folding the right edge at finalization -/

lemma finalizeFold_append (key : List Nat) (fl : Nat) : ∀ (A R : List (List Nat)) (o : Output),
    finalizeFold key fl o (A ++ R) = finalizeFold key fl (finalizeFold key fl o A) R := by
  intro A
  induction A with
  | nil => intro R o; rfl
  | cons x A ih =>
    intro R o
    rw [List.cons_append, finalizeFold, finalizeFold, ih]

/-- Folding the right-edge stack over the last chunk's output produces the
complete-tree root output. -/
lemma finalizeFold_ones (B : List Nat) : ∀ (k b : Nat),
    finalizeFold IV 0 (chunkOut B (b + 2 ^ k - 1)) (onesStack B b k) =
      nodeOf (chunkOut B) b k := by
  intro k
  induction k with
  | zero =>
    intro b
    simp [onesStack, finalizeFold, nodeOf]
  | succ k ih =>
    intro b
    rw [onesStack, finalizeFold_append]
    have hidx : b + 2 ^ (k + 1) - 1 = (b + 2 ^ k) + 2 ^ k - 1 := by
      rw [pow_succ]
      omega
    rw [hidx, ih (b + 2 ^ k)]
    rw [finalizeFold, finalizeFold]
    rfl

/-- The streaming hash of a `2 ^ k`-chunk input is the root output bytes of
the complete tree over its chunk outputs. -/
lemma hasher_finalize_pow (B : List Nat) (k : Nat) (hB : B.length = 1024 * 2 ^ k)
    (L : Nat) :
    (Blake3Hasher.new.update B).finalize L =
      (nodeOf (chunkOut B) 0 k).root_output_bytes L := by
  rw [hasher_new_update B (2 ^ k) (Nat.one_le_two_pow) hB]
  rw [Blake3Hasher.finalize]
  have hstack : foldChunks B [] 0 (2 ^ k - 1) = onesStack B 0 k := by
    rw [foldChunks_ones B k 0 [] (dvd_zero _)]
    simp
  have hout : ((ChunkState.new IV (2 ^ k - 1) 0).update
      ((B.drop (1024 * (2 ^ k - 1))).take 1024)).output = chunkOut B (2 ^ k - 1) := rfl
  simp only [hstack, hout]
  have hidx : (2 ^ k : Nat) - 1 = 0 + 2 ^ k - 1 := by omega
  rw [hidx, finalizeFold_ones B k 0]

/-! ## The balanced construction computes the canonical tree -/

lemma nextPow2Loop_pow : ∀ (k f : Nat), 2 ^ k ≤ f → nextPow2Loop f (2 ^ k) = 2 ^ k := by
  intro k
  induction k with
  | zero =>
    intro f hf
    cases f with
    | zero => exact absurd hf (by simp)
    | succ f' => simp [nextPow2Loop]
  | succ k ih =>
    intro f hf
    have hpk : 1 ≤ 2 ^ k := Nat.one_le_two_pow
    have hps : 2 ^ (k + 1) = 2 * 2 ^ k := by rw [pow_succ]; ring
    cases f with
    | zero => exact absurd hf (by omega)
    | succ f' =>
      rw [nextPow2Loop, if_neg (by omega)]
      have harg : (2 ^ (k + 1) + 1) / 2 = 2 ^ k := by omega
      rw [harg, ih f' (by omega), hps]

lemma nextPow2_pow (k : Nat) : nextPow2 (2 ^ k) = 2 ^ k :=
  nextPow2Loop_pow k (2 ^ k) le_rfl

lemma canonSlot_zero (os : List Output) : canonSlot os 0 = emptyOutput := by
  rw [canonSlot]
  simp

lemma canonSlot_leaf (os : List Output) (i : Nat) (h0 : i ≠ 0) (h : os.length ≤ i) :
    canonSlot os i = os.getD (i - os.length) emptyOutput := by
  rw [canonSlot, if_neg h0, if_pos h]

lemma canonSlot_inner (os : List Output) (i : Nat) (h0 : i ≠ 0) (h : i < os.length) :
    canonSlot os i = parent_output (canonSlot os (2 * i)).chaining_value
      (canonSlot os (2 * i + 1)).chaining_value IV 0 := by
  rw [canonSlot, if_neg h0, if_neg (by omega)]

lemma zip_range' : ∀ (l : List Output) (s : Nat),
    l.zip (List.range' s l.length) =
      (List.range' s l.length).map (fun i => (l.getD (i - s) emptyOutput, i)) := by
  intro l
  induction l with
  | nil => intro s; rfl
  | cons a l ih =>
    intro s
    rw [List.length_cons, List.range'_succ, List.zip_cons_cons, ih (s + 1), List.map_cons]
    have hhead : (a, s) = ((a :: l).getD (s - s) emptyOutput, s) := by
      rw [Nat.sub_self, List.getD_cons_zero]
    rw [hhead]
    have htail : (List.range' (s + 1) l.length).map
          (fun i => (l.getD (i - (s + 1)) emptyOutput, i)) =
        (List.range' (s + 1) l.length).map
          (fun i => ((a :: l).getD (i - s) emptyOutput, i)) := by
      apply List.map_congr_left
      intro i hi
      have his : s + 1 ≤ i := (List.mem_range'_1.mp hi).1
      have hsub : i - s = (i - (s + 1)) + 1 := by omega
      rw [hsub, List.getD_cons_succ]
    rw [htail]

lemma setRange_zero (os : List Output) (a : Nat) (t : List Output) :
    setRange os a 0 t = t := rfl

lemma setRange_snoc (os : List Output) (a m : Nat) (t : List Output) :
    setRange os a (m + 1) t = (setRange os a m t).set (a + m) (canonSlot os (a + m)) := by
  rw [setRange, setRange, List.range_succ, List.foldl_append, List.foldl_cons, List.foldl_nil]

lemma setRange_succ (os : List Output) (a m : Nat) (t : List Output) :
    setRange os a (m + 1) t = setRange os (a + 1) m (t.set a (canonSlot os a)) := by
  rw [setRange, setRange, List.range_succ_eq_map, List.foldl_cons, List.foldl_map]
  have hfun : (fun (acc : List Output) (i : Nat) =>
        acc.set (a + (i + 1)) (canonSlot os (a + (i + 1)))) =
      (fun (acc : List Output) (i : Nat) =>
        acc.set (a + 1 + i) (canonSlot os (a + 1 + i))) := by
    funext acc i
    have h : a + (i + 1) = a + 1 + i := by omega
    rw [h]
  rw [Nat.add_zero, hfun]

lemma setRange_length (os : List Output) (a m : Nat) (t : List Output) :
    (setRange os a m t).length = t.length := by
  induction m with
  | zero => rfl
  | succ m ih => rw [setRange_snoc, List.length_set, ih]

lemma setRange_getD (os : List Output) (d : Output) (a : Nat) :
    ∀ (m : Nat) (t : List Output) (i : Nat),
    (setRange os a m t).getD i d =
      if a ≤ i ∧ i < a + m ∧ i < t.length then canonSlot os i else t.getD i d := by
  intro m
  induction m with
  | zero =>
    intro t i
    rw [setRange_zero, if_neg (by omega)]
  | succ m ih =>
    intro t i
    rw [setRange_snoc]
    by_cases hi : i = a + m
    · subst hi
      by_cases hlen : a + m < t.length
      · rw [getD_set_eq _ _ _ _ (by rw [setRange_length]; exact hlen)]
        rw [if_pos ⟨by omega, by omega, hlen⟩]
      · rw [List.set_eq_of_length_le (by rw [setRange_length]; omega), ih,
          if_neg (by omega), if_neg (by omega)]
    · rw [getD_set_ne _ _ _ _ _ (fun h => hi h.symm), ih]
      by_cases h1 : a ≤ i ∧ i < a + m ∧ i < t.length
      · rw [if_pos h1, if_pos ⟨h1.1, by omega, h1.2.2⟩]
      · rw [if_neg h1, if_neg (by omega)]

/-- One pass of the FIFO build loop over a full level: consuming the `2 * m`
canonical entries of the level starting at even slot `s` writes the `m`
canonical parents at `s / 2 .. s / 2 + m` and enqueues them behind `B`. -/
lemma buildLoop_level (os : List Output) : ∀ (m s g : Nat) (B : List (Output × Nat))
    (t : List Output), 2 ≤ s → s % 2 = 0 → s + 2 * m ≤ 2 * os.length →
    buildLoop (m + g) t
        ((List.range' s (2 * m)).map (fun i => (canonSlot os i, i)) ++ B) =
      buildLoop g (setRange os (s / 2) m t)
        (B ++ (List.range' (s / 2) m).map (fun i => (canonSlot os i, i))) := by
  intro m
  induction m with
  | zero =>
    intro s g B t _ _ _
    simp [setRange_zero]
  | succ m ih =>
    intro s g B t hs2 hse hsb
    have h2m : 2 * (m + 1) = 2 * m + 1 + 1 := by ring
    rw [h2m, List.range'_succ, List.range'_succ]
    simp only [List.map_cons, List.cons_append]
    have hstep : m + 1 + g = m + g + 1 := by omega
    rw [hstep]
    simp only [buildLoop, getParentIndex]
    have h2s : 2 * (s / 2) = s := by omega
    have hparent : parent_output (canonSlot os s).chaining_value
        (canonSlot os (s + 1)).chaining_value IV 0 = canonSlot os (s / 2) := by
      rw [canonSlot_inner os (s / 2) (by omega) (by omega), h2s]
    rw [hparent]
    have hidx : s + 1 + 1 = s + 2 := by omega
    rw [hidx, List.append_assoc]
    rw [ih (s + 2) g (B ++ [(canonSlot os (s / 2), s / 2)])
      (t.set (s / 2) (canonSlot os (s / 2))) (by omega) (by omega) (by omega)]
    have hs2d : (s + 2) / 2 = s / 2 + 1 := by omega
    rw [hs2d, ← setRange_succ, List.append_assoc, List.singleton_append,
      ← List.map_cons (fun i => (canonSlot os i, i)) (s / 2), ← List.range'_succ]

/-- Running the FIFO build loop on the canonical entries of a full level of
`2 ^ r` nodes consumes fuel `2 ^ r - 1` and writes every level above. -/
lemma buildLoop_levels (os : List Output) : ∀ (r s g : Nat) (t : List Output),
    2 ^ r ∣ s → 1 ≤ s / 2 ^ r → s + 2 ^ r ≤ 2 * os.length →
    buildLoop (2 ^ r - 1 + g) t
        ((List.range' s (2 ^ r)).map (fun i => (canonSlot os i, i))) =
      setLevels os s r t := by
  intro r
  induction r with
  | zero =>
    intro s g t _ _ _
    rw [pow_zero]
    have h0 : 1 - 1 + g = g := by omega
    rw [h0, List.range'_one]
    simp only [List.map_cons, List.map_nil]
    cases g with
    | zero => rfl
    | succ g' => rfl
  | succ r ih =>
    intro s g t hdvd hge hle
    have hpk : 1 ≤ 2 ^ r := Nat.one_le_two_pow
    have hps : (2 : Nat) ^ (r + 1) = 2 * 2 ^ r := by rw [pow_succ]; ring
    obtain ⟨q, hq⟩ := hdvd
    have hsq : s = 2 * (2 ^ r * q) := by rw [hq, hps]; ring
    have hdiv2 : s / 2 = 2 ^ r * q := by omega
    have hdq : s / 2 ^ (r + 1) = q := by
      rw [hq]
      exact Nat.mul_div_cancel_left q (by positivity)
    have hq1 : 1 ≤ q := by omega
    have hsge : 2 ^ (r + 1) ≤ s := (Nat.one_le_div_iff (by positivity)).mp hge
    have hfuel : 2 ^ (r + 1) - 1 + g = 2 ^ r + (2 ^ r - 1 + g) := by omega
    rw [hfuel, hps]
    rw [← List.append_nil ((List.range' s (2 * 2 ^ r)).map (fun i => (canonSlot os i, i)))]
    rw [buildLoop_level os (2 ^ r) s (2 ^ r - 1 + g) [] t (by omega) (by omega) (by omega)]
    rw [List.nil_append]
    have hdivq : s / 2 / 2 ^ r = q := by
      rw [hdiv2]
      exact Nat.mul_div_cancel_left q (by positivity)
    rw [ih (s / 2) g (setRange os (s / 2) (2 ^ r) t) ⟨q, hdiv2⟩ (by omega) (by omega)]
    rfl

lemma setLevels_length (os : List Output) : ∀ (r s : Nat) (t : List Output),
    (setLevels os s r t).length = t.length := by
  intro r
  induction r with
  | zero => intro s t; rfl
  | succ r ih =>
    intro s t
    show (setLevels os (s / 2) r (setRange os (s / 2) (2 ^ r) t)).length = t.length
    rw [ih, setRange_length]

/-- Writing all levels above a full leaf level of `2 ^ k` nodes fills
exactly the inner slots `1 .. 2 ^ k - 1` with their canonical values. -/
lemma setLevels_pow_getD (os : List Output) (d : Output) : ∀ (k : Nat) (t : List Output)
    (i : Nat), 2 ^ k ≤ t.length →
    (setLevels os (2 ^ k) k t).getD i d =
      if 1 ≤ i ∧ i < 2 ^ k then canonSlot os i else t.getD i d := by
  intro k
  induction k with
  | zero =>
    intro t i _
    rw [pow_zero]
    rw [if_neg (by omega)]
    rfl
  | succ k ih =>
    intro t i ht
    have hpk : 1 ≤ 2 ^ k := Nat.one_le_two_pow
    have hps : (2 : Nat) ^ (k + 1) = 2 * 2 ^ k := by rw [pow_succ]; ring
    show (setLevels os (2 ^ (k + 1) / 2) k
        (setRange os (2 ^ (k + 1) / 2) (2 ^ k) t)).getD i d = _
    have hhalf : 2 ^ (k + 1) / 2 = 2 ^ k := by omega
    rw [hhalf]
    rw [ih (setRange os (2 ^ k) (2 ^ k) t) i (by rw [setRange_length]; omega)]
    rw [setRange_getD]
    by_cases h1 : 1 ≤ i ∧ i < 2 ^ k
    · rw [if_pos h1, if_pos ⟨h1.1, by omega⟩]
    · rw [if_neg h1]
      by_cases h2 : 2 ^ k ≤ i ∧ i < 2 ^ k + 2 ^ k ∧ i < t.length
      · rw [if_pos h2, if_pos ⟨by omega, by omega⟩]
      · rw [if_neg h2, if_neg (by omega)]

lemma canonTree_length (os : List Output) : (canonTree os).length = 2 * os.length := by
  rw [canonTree, List.length_map, List.length_range]

lemma canonTree_getD (os : List Output) (d : Output) (i : Nat) (h : i < 2 * os.length) :
    (canonTree os).getD i d = canonSlot os i := by
  rw [canonTree, List.getD_eq_getElem _ d (by rw [List.length_map, List.length_range]; exact h),
    List.getElem_map, List.getElem_range]

/-- `BinaryMerkleTree::new_from_leaves` on a power-of-two number of leaves
produces exactly the canonical tree over those leaves. -/
lemma createTree_canon (os : List Output) (k : Nat) (hos : os.length = 2 ^ k) :
    (BinaryMerkleTree.new_from_leaves os).tree = canonTree os := by
  show createTreeFromLeaves (List.replicate (2 * nextPow2 os.length) emptyOutput) os =
    canonTree os
  rw [hos, nextPow2_pow]
  cases k with
  | zero =>
    obtain ⟨o, rfl⟩ := List.length_eq_one.mp (hos.trans (pow_zero 2))
    have hL : createTreeFromLeaves (List.replicate (2 * 2 ^ 0) emptyOutput) [o] =
        [emptyOutput, o] := rfl
    have hR : canonTree [o] = [canonSlot [o] 0, canonSlot [o] 1] := rfl
    rw [hL, hR, canonSlot_zero, canonSlot_leaf [o] 1 one_ne_zero (by simp)]
    rfl
  | succ k' =>
    have hpk : 1 ≤ 2 ^ k' := Nat.one_le_two_pow
    have hps : (2 : Nat) ^ (k' + 1) = 2 * 2 ^ k' := by rw [pow_succ]; ring
    have hne : os.length = 1 → False := by rw [hos]; omega
    have hmain : createTreeFromLeaves (List.replicate (2 * 2 ^ (k' + 1)) emptyOutput) os =
        setLevels os (2 ^ (k' + 1)) (k' + 1)
          (List.replicate (2 ^ (k' + 1)) emptyOutput ++ os) := by
      simp only [createTreeFromLeaves]
      have htake : (List.replicate (2 * 2 ^ (k' + 1)) emptyOutput).take
          ((List.replicate (2 * 2 ^ (k' + 1)) emptyOutput).length - os.length) =
          List.replicate (2 ^ (k' + 1)) emptyOutput := by
        rw [List.length_replicate, hos, List.take_replicate]
        congr 1
        omega
      rw [htake, if_neg hne]
      have hlsi : ((List.replicate (2 ^ (k' + 1)) emptyOutput ++ os).length - 1) / 2 + 1 =
          2 ^ (k' + 1) := by
        rw [List.length_append, List.length_replicate, hos]
        omega
      rw [hlsi]
      have hdrop : (List.replicate (2 ^ (k' + 1)) emptyOutput ++ os).drop (2 ^ (k' + 1)) =
          os := by
        have h := List.drop_left (List.replicate (2 ^ (k' + 1)) emptyOutput) os
        rw [List.length_replicate] at h
        exact h
      rw [hdrop, zip_range' os (2 ^ (k' + 1))]
      have hmapc : (List.range' (2 ^ (k' + 1)) os.length).map
            (fun i => (os.getD (i - 2 ^ (k' + 1)) emptyOutput, i)) =
          (List.range' (2 ^ (k' + 1)) os.length).map (fun i => (canonSlot os i, i)) := by
        apply List.map_congr_left
        intro i hi
        have hmem := List.mem_range'_1.mp hi
        rw [canonSlot_leaf os i (by omega) (by rw [hos]; omega), hos]
      rw [hmapc, hos, List.length_map, List.length_range']
      have hCL := buildLoop_levels os (k' + 1) (2 ^ (k' + 1)) 1
        (List.replicate (2 ^ (k' + 1)) emptyOutput ++ os) dvd_rfl
        (by rw [Nat.div_self (by positivity)]) (by rw [hos]; omega)
      have hfe : 2 ^ (k' + 1) - 1 + 1 = 2 ^ (k' + 1) := by omega
      rw [hfe] at hCL
      exact hCL
    rw [hmain]
    apply List.ext_getElem
    · rw [setLevels_length, List.length_append, List.length_replicate, hos,
        canonTree_length, hos]
      omega
    · intro i h1 h2
      have hi2 : i < 2 * 2 ^ (k' + 1) := by
        rw [canonTree_length, hos] at h2
        omega
      rw [← List.getD_eq_getElem _ emptyOutput h1, ← List.getD_eq_getElem _ emptyOutput h2]
      rw [canonTree_getD os emptyOutput i (by rw [hos]; omega)]
      rw [setLevels_pow_getD os emptyOutput (k' + 1)
        (List.replicate (2 ^ (k' + 1)) emptyOutput ++ os) i
        (by rw [List.length_append, List.length_replicate, hos]; omega)]
      by_cases hc : 1 ≤ i ∧ i < 2 ^ (k' + 1)
      · rw [if_pos hc]
      · rw [if_neg hc]
        by_cases hi0 : i = 0
        · subst hi0
          rw [canonSlot_zero,
            List.getD_append _ _ _ _ (by rw [List.length_replicate]; omega),
            List.getD_eq_getElem _ _ (by rw [List.length_replicate]; omega),
            List.getElem_replicate]
        · rw [canonSlot_leaf os i hi0 (by rw [hos]; omega),
            List.getD_append_right _ _ _ _ (by rw [List.length_replicate]; omega),
            List.length_replicate, hos]

/-- A slot of depth `c` levels above the leaves of the canonical tree holds
the complete-subtree output over its leaf range. -/
lemma canonSlot_nodeOf (os : List Output) (k : Nat) (hos : os.length = 2 ^ k) :
    ∀ (c i : Nat), c ≤ k → 2 ^ (k - c) ≤ i → i < 2 ^ (k - c + 1) →
    canonSlot os i =
      nodeOf (fun j => os.getD j emptyOutput) ((i - 2 ^ (k - c)) * 2 ^ c) c := by
  intro c
  induction c with
  | zero =>
    intro i _ hge hlt
    rw [Nat.sub_zero] at hge hlt
    have hpk : 1 ≤ 2 ^ k := Nat.one_le_two_pow
    rw [canonSlot_leaf os i (by omega) (by rw [hos]; exact hge)]
    simp only [nodeOf]
    rw [pow_zero, Nat.mul_one, hos, Nat.sub_zero]
  | succ c ih =>
    intro i hck hge hlt
    have hd1 : k - c = k - (c + 1) + 1 := by omega
    have hpd : 1 ≤ 2 ^ (k - (c + 1)) := Nat.one_le_two_pow
    have hpd2 : (2 : Nat) ^ (k - (c + 1) + 1) = 2 * 2 ^ (k - (c + 1)) := by
      rw [pow_succ]; ring
    have hik : i < os.length := by
      rw [hos]
      calc i < 2 ^ (k - (c + 1) + 1) := hlt
        _ ≤ 2 ^ k := Nat.pow_le_pow_right (by omega) (by omega)
    rw [canonSlot_inner os i (by omega) hik]
    have hc2 : (2 : Nat) ^ (k - c + 1) = 2 * 2 ^ (k - c) := by rw [pow_succ]; ring
    rw [ih (2 * i) (by omega) (by rw [hd1, hpd2]; omega)
      (by rw [hc2, hd1, hpd2]; omega)]
    rw [ih (2 * i + 1) (by omega) (by rw [hd1, hpd2]; omega)
      (by rw [hc2, hd1, hpd2]; omega)]
    simp only [nodeOf]
    have hA : (2 * i - 2 ^ (k - c)) * 2 ^ c = (i - 2 ^ (k - (c + 1))) * 2 ^ (c + 1) := by
      rw [hd1, hpd2, pow_succ]
      have h2 : 2 * i - 2 * 2 ^ (k - (c + 1)) = 2 * (i - 2 ^ (k - (c + 1))) := by omega
      rw [h2]; ring
    have hB : (2 * i + 1 - 2 ^ (k - c)) * 2 ^ c =
        (i - 2 ^ (k - (c + 1))) * 2 ^ (c + 1) + 2 ^ c := by
      rw [hd1, hpd2, pow_succ]
      have h2 : 2 * i + 1 - 2 * 2 ^ (k - (c + 1)) = 2 * (i - 2 ^ (k - (c + 1))) + 1 := by
        omega
      rw [h2]; ring
    rw [hA, hB]

/-- Slot 1 of the canonical tree holds the complete-tree output over all
leaves. -/
lemma canonSlot_root (os : List Output) (k : Nat) (hos : os.length = 2 ^ k) :
    canonSlot os 1 = nodeOf (fun j => os.getD j emptyOutput) 0 k := by
  have h := canonSlot_nodeOf os k hos k 1 le_rfl
    (le_of_eq (by rw [Nat.sub_self, pow_zero])) (by rw [Nat.sub_self]; norm_num)
  rw [Nat.sub_self, pow_zero] at h
  have h0 : (1 - 1) * 2 ^ k = 0 := by norm_num
  rw [h0] at h
  exact h

/-- `nodeOf` only looks at the leaves of its range. -/
lemma nodeOf_congr (f g : Nat → Output) : ∀ (j t : Nat),
    (∀ x, t ≤ x → x < t + 2 ^ j → f x = g x) → nodeOf f t j = nodeOf g t j := by
  intro j
  induction j with
  | zero =>
    intro t h
    simp only [nodeOf]
    exact h t le_rfl (by norm_num)
  | succ j ih =>
    intro t h
    have hps : (2 : Nat) ^ (j + 1) = 2 * 2 ^ j := by rw [pow_succ]; ring
    simp only [nodeOf]
    rw [ih t (fun x hx1 hx2 => h x hx1 (by omega)),
      ih (t + 2 ^ j) (fun x hx1 hx2 => h x (by omega) (by omega))]

lemma lor_self_right (a b : Nat) : Nat.lor (Nat.lor a b) b = Nat.lor a b := by
  show a ||| b ||| b = a ||| b
  rw [Nat.lor_assoc, Nat.or_self]

/-- Re-setting the ROOT flag on an `Output` does not change its strides. -/
lemma rootStrideBytes_lor_root (o : Output) (j : Nat) :
    Output.rootStrideBytes { o with flags := Nat.lor o.flags ROOT } j =
      o.rootStrideBytes j := by
  simp only [Output.rootStrideBytes]
  rw [lor_self_right]

/-- Two outputs with identical strides have identical root-output loops. -/
lemma rootOutputLoop_congr (o o' : Output)
    (h : ∀ j, Output.rootStrideBytes o' j = o.rootStrideBytes j) :
    ∀ (blocks j rem : Nat), rootOutputLoop o' blocks j rem = rootOutputLoop o blocks j rem := by
  intro blocks
  induction blocks with
  | zero => intro j rem; rfl
  | succ b ih =>
    intro j rem
    simp only [rootOutputLoop]
    rw [h j, ih]

/-- Re-setting the ROOT flag does not change the root output bytes. -/
lemma root_output_bytes_lor_root (o : Output) (L : Nat) :
    Output.root_output_bytes { o with flags := Nat.lor o.flags ROOT } L =
      o.root_output_bytes L := by
  rw [Output.root_output_bytes, Output.root_output_bytes]
  exact rootOutputLoop_congr o _ (fun j => rootStrideBytes_lor_root o j) L 0 L

/-- C1.  For every input whose length is a positive power-of-two multiple of
1024 (the only byte lengths satisfying "length 0 or a multiple of 1024 AND a
power-of-two chunk count"), the balanced `BinaryMerkleTree` built from
`process_input_to_chunks` of the input has a root whose
`root_output_bytes` over a 32-byte buffer are exactly the bytes of
`Blake3Hasher::new().update(input).finalize` into a 32-byte buffer. -/
theorem c1_balanced_root_matches_streaming (B : List Nat) (k : Nat)
    (hB : B.length = 1024 * 2 ^ k) :
    (BinaryMerkleTree.new_from_leaves (process_input_to_chunks B)).root.root_output_bytes
        32 =
      (Blake3Hasher.new.update B).finalize 32 := by
  have hpk : 1 ≤ 2 ^ k := Nat.one_le_two_pow
  have hcount : (B.length + 1023) / 1024 = 2 ^ k := by rw [hB]; omega
  have hos : process_input_to_chunks B = (List.range (2 ^ k)).map (chunkOut B) := by
    rw [process_input_to_chunks_eq, hcount]
  have hlen : ((List.range (2 ^ k)).map (chunkOut B)).length = 2 ^ k := by
    rw [List.length_map, List.length_range]
  have htree := createTree_canon ((List.range (2 ^ k)).map (chunkOut B)) k hlen
  rw [hos]
  simp only [BinaryMerkleTree.root]
  rw [htree]
  rw [canonTree_getD _ emptyOutput 1 (by rw [hlen]; omega)]
  rw [canonSlot_root _ k hlen]
  have hleafcongr :
      nodeOf (fun j => ((List.range (2 ^ k)).map (chunkOut B)).getD j emptyOutput) 0 k =
        nodeOf (chunkOut B) 0 k := by
    apply nodeOf_congr
    intro x hx1 hx2
    rw [List.getD_eq_getElem _ _ (by rw [hlen]; omega), List.getElem_map,
      List.getElem_range]
  rw [hleafcongr, root_output_bytes_lor_root, hasher_finalize_pow B k hB 32]

/-- Witness for C1 at the one-chunk input of 1024 zero bytes. -/
theorem c1_balanced_root_matches_streaming_witness :
    (List.replicate 1024 (0 : Nat)).length = 1024 * 2 ^ 0 ∧
      (BinaryMerkleTree.new_from_leaves
            (process_input_to_chunks (List.replicate 1024 (0 : Nat)))).root.root_output_bytes
          32 =
        (Blake3Hasher.new.update (List.replicate 1024 (0 : Nat))).finalize 32 :=
  ⟨by rw [List.length_replicate, pow_zero, Nat.mul_one],
    c1_balanced_root_matches_streaming (List.replicate 1024 0) 0
      (by rw [List.length_replicate, pow_zero, Nat.mul_one])⟩

set_option maxRecDepth 10000 in
/-- C9.  There is an input whose chunk count is not a power of two on which
the unbalanced tree's root bytes differ from the streaming hash: the empty
input (0 chunks; the tree holds only sentinel nodes whose root compresses a
zero block with `block_len` 64 and no chunk flags, while the streaming
hasher finalizes an empty chunk with `block_len` 0 and
CHUNK_START | CHUNK_END). -/
theorem c9_unbalanced_nonpow2_root_differs :
    ∃ B : List Nat,
      (∀ j : Nat, (process_input_to_chunks B).length ≠ 2 ^ j) ∧
      (UnbalancedMerkleTree.new_from_leaves
            (process_input_to_chunks B)).root.root_output_bytes 32 ≠
        (Blake3Hasher.new.update B).finalize 32 := by
  refine ⟨[], fun j => ?_, ?_⟩
  · have h0 : (process_input_to_chunks ([] : List Nat)).length = 0 := rfl
    rw [h0]
    have h1 := Nat.one_le_two_pow (n := j)
    omega
  · decide

/-! ## The FIFO pairing of claim C7 on power-of-two queues -/

/-- One pass of the C7 FIFO over a full level of `2 * m` entries: the level
is replaced by its pairwise reduction, enqueued behind `B`. -/
lemma fifoLoop_level : ∀ (m : Nat) (L B : List Output) (g : Nat), L.length = 2 * m →
    fifoLoop (m + g) (L ++ B) = fifoLoop g (B ++ pairReduce L) := by
  intro m
  induction m with
  | zero =>
    intro L B g hL
    have hnil : L = [] := List.length_eq_zero.mp (by omega)
    subst hnil
    have hp : pairReduce ([] : List Output) = [] := rfl
    rw [hp, List.append_nil, List.nil_append, Nat.zero_add]
  | succ m ih =>
    intro L B g hL
    cases L with
    | nil => simp at hL
    | cons a L1 =>
      cases L1 with
      | nil => simp at hL; omega
      | cons b L' =>
        have hL' : L'.length = 2 * m := by
          simp only [List.length_cons] at hL
          omega
        simp only [List.cons_append]
        have hstep : m + 1 + g = m + g + 1 := by omega
        rw [hstep]
        simp only [fifoLoop]
        rw [List.append_assoc,
          ih L' (B ++ [parent_output a.chaining_value b.chaining_value IV 0]) g hL',
          List.append_assoc, List.singleton_append]
        rfl

/-- Pairwise reduction of a level of complete-subtree outputs is the level
above. -/
lemma pairReduce_nodeOf (f : Nat → Output) (c : Nat) : ∀ (m s : Nat),
    pairReduce ((List.range' (2 * s) (2 * m)).map (fun i => nodeOf f (i * 2 ^ c) c)) =
      (List.range' s m).map (fun i => nodeOf f (i * 2 ^ (c + 1)) (c + 1)) := by
  intro m
  induction m with
  | zero => intro s; rfl
  | succ m ih =>
    intro s
    have h2 : 2 * (m + 1) = 2 * m + 1 + 1 := by ring
    rw [h2, List.range'_succ, List.range'_succ, List.map_cons, List.map_cons]
    simp only [pairReduce]
    have hidx : 2 * s + 1 + 1 = 2 * (s + 1) := by ring
    rw [hidx, ih (s + 1), List.range'_succ, List.map_cons]
    have hA : 2 * s * 2 ^ c = s * 2 ^ (c + 1) := by rw [pow_succ]; ring
    have hB : (2 * s + 1) * 2 ^ c = s * 2 ^ (c + 1) + 2 ^ c := by rw [pow_succ]; ring
    rw [hA, hB]
    have hhead : nodeOf f (s * 2 ^ (c + 1)) (c + 1) =
        parent_output (nodeOf f (s * 2 ^ (c + 1)) c).chaining_value
          (nodeOf f (s * 2 ^ (c + 1) + 2 ^ c) c).chaining_value IV 0 := rfl
    rw [hhead]

/-- Running the C7 FIFO on a full level of `2 ^ k` complete-subtree outputs
leaves exactly the complete-tree root, whatever fuel remains. -/
lemma fifoLoop_levels (f : Nat → Output) : ∀ (k c g : Nat),
    fifoLoop (2 ^ k + g) ((List.range (2 ^ k)).map (fun i => nodeOf f (i * 2 ^ c) c)) =
      [nodeOf f 0 (c + k)] := by
  intro k
  induction k with
  | zero =>
    intro c g
    rw [pow_zero]
    have h1 : List.range 1 = [0] := rfl
    rw [h1, List.map_cons, List.map_nil]
    have hg : 1 + g = g + 1 := by omega
    rw [hg]
    simp only [fifoLoop]
    rw [Nat.zero_mul, Nat.add_zero]
  | succ k ih =>
    intro c g
    have hps : (2 : Nat) ^ (k + 1) = 2 * 2 ^ k := by rw [pow_succ]; ring
    have hsplit : 2 ^ (k + 1) + g = 2 ^ k + (2 ^ k + g) := by omega
    rw [hsplit, hps, List.range_eq_range']
    rw [← List.append_nil ((List.range' 0 (2 * 2 ^ k)).map (fun i => nodeOf f (i * 2 ^ c) c))]
    rw [fifoLoop_level (2 ^ k)
      ((List.range' 0 (2 * 2 ^ k)).map (fun i => nodeOf f (i * 2 ^ c) c)) [] (2 ^ k + g)
      (by rw [List.length_map, List.length_range'])]
    rw [List.nil_append]
    have hpr := pairReduce_nodeOf f c (2 ^ k) 0
    have h20 : 2 * 0 = 0 := rfl
    rw [h20] at hpr
    rw [hpr, ← List.range_eq_range', ih (c + 1) g]
    have hc : c + 1 + k = c + (k + 1) := by omega
    rw [hc]

/-- The C7 FIFO root over `2 ^ k` leaves is the complete-tree output over
those leaves. -/
lemma specFifoRoot_pow (os : List Output) (k : Nat) (hos : os.length = 2 ^ k) :
    specFifoRoot os = nodeOf (fun j => os.getD j emptyOutput) 0 k := by
  rw [specFifoRoot, hos]
  have hL : os = (List.range (2 ^ k)).map
      (fun i => nodeOf (fun j => os.getD j emptyOutput) (i * 2 ^ 0) 0) := by
    apply List.ext_getElem
    · rw [List.length_map, List.length_range, hos]
    · intro i h1 h2
      rw [List.getElem_map, List.getElem_range]
      simp only [nodeOf]
      rw [pow_zero, Nat.mul_one, List.getD_eq_getElem _ _ h1]
  have hfifo := fifoLoop_levels (fun j => os.getD j emptyOutput) k 0 0
  rw [Nat.add_zero] at hfifo
  rw [Nat.zero_add] at hfifo
  conv_lhs => rw [hL]
  rw [hfifo]
  rfl

set_option maxRecDepth 10000 in
/-- C7 counterexample: on three sentinel leaves (`n = 3`,
`C = next_power_of_two(3) = 4`), slot 1 of the constructed tree is *not*
the FIFO pairing of the provided leaves — the build queue is seeded from
slots `[4, 7)` while the leaves sit in slots `[5, 8)`, and slot 1 is never
written at all. -/
theorem c7_create_tree_fifo_counterexample :
    ¬ ((BinaryMerkleTree.new_from_leaves
          [emptyOutput, emptyOutput, emptyOutput]).tree.getD 1 emptyOutput =
        specFifoRoot [emptyOutput, emptyOutput, emptyOutput]) := by
  decide

/-- C7 amended: for a *power-of-two* number `n = 2 ^ k` of provided leaves
(the only shapes on which the construction is coherent), `new_from_leaves`
stores the leaves in slots `[2C - n, 2C)` (`C = next_power_of_two(n) = n`),
and for `n ≥ 2` slot 1 holds exactly the root obtained by the claimed FIFO
pairing of the provided leaves. -/
theorem c7_create_tree_fifo_amended (os : List Output) (k : Nat)
    (hos : os.length = 2 ^ k) :
    (∀ j, j < 2 ^ k →
      (BinaryMerkleTree.new_from_leaves os).tree.getD
          (2 * nextPow2 os.length - os.length + j) emptyOutput =
        os.getD j emptyOutput) ∧
    (2 ≤ 2 ^ k →
      (BinaryMerkleTree.new_from_leaves os).tree.getD 1 emptyOutput =
        specFifoRoot os) := by
  have hpk : 1 ≤ 2 ^ k := Nat.one_le_two_pow
  have htree := createTree_canon os k hos
  constructor
  · intro j hj
    rw [htree, hos, nextPow2_pow]
    have hidx : 2 * 2 ^ k - 2 ^ k + j = 2 ^ k + j := by omega
    rw [hidx, canonTree_getD os emptyOutput (2 ^ k + j) (by rw [hos]; omega),
      canonSlot_leaf os (2 ^ k + j) (by omega) (by rw [hos]; omega), hos]
    congr 1
    omega
  · intro _
    rw [htree, canonTree_getD os emptyOutput 1 (by rw [hos]; omega),
      canonSlot_root os k hos, specFifoRoot_pow os k hos]

/-- Witness for the amended C7 at a single sentinel leaf. -/
theorem c7_create_tree_fifo_amended_witness :
    ([emptyOutput] : List Output).length = 2 ^ 0 ∧
      ((∀ j, j < 2 ^ 0 →
        (BinaryMerkleTree.new_from_leaves [emptyOutput]).tree.getD
            (2 * nextPow2 ([emptyOutput] : List Output).length -
              ([emptyOutput] : List Output).length + j) emptyOutput =
          ([emptyOutput] : List Output).getD j emptyOutput) ∧
      (2 ≤ 2 ^ 0 →
        (BinaryMerkleTree.new_from_leaves [emptyOutput]).tree.getD 1 emptyOutput =
          specFifoRoot [emptyOutput])) :=
  ⟨rfl, c7_create_tree_fifo_amended [emptyOutput] 0 rfl⟩

/-! ## Reading root bytes back as words (the test suite's conversion) -/

lemma wordsLEBytes_take : ∀ (k : Nat) (ws : List Nat),
    (wordsLEBytes ws).take (4 * k) = wordsLEBytes (ws.take k) := by
  intro k
  induction k with
  | zero => intro ws; rfl
  | succ k ih =>
    intro ws
    cases ws with
    | nil => rfl
    | cons w t =>
      rw [wordsLEBytes_cons]
      have h4 : 4 * (k + 1) = 4 + 4 * k := by ring
      rw [h4, List.take_append_eq_append_take]
      have hlen : (wordLEBytes w).length = 4 := rfl
      rw [List.take_of_length_le (by rw [hlen]; omega), hlen]
      have hsub : 4 + 4 * k - 4 = 4 * k := by omega
      rw [hsub, ih, List.take_succ_cons, wordsLEBytes_cons]

lemma wordsLEBytes_getD : ∀ (ws : List Nat) (i r : Nat), i < ws.length → r < 4 →
    (wordsLEBytes ws).getD (4 * i + r) 0 = (wordLEBytes (ws.getD i 0)).getD r 0 := by
  intro ws
  induction ws with
  | nil => intro i r hi _; simp at hi
  | cons w t ih =>
    intro i r hi hr
    rw [wordsLEBytes_cons]
    cases i with
    | zero =>
      rw [Nat.mul_zero, Nat.zero_add]
      have h4 : (wordLEBytes w).length = 4 := rfl
      rw [List.getD_append _ _ _ _ (by omega), List.getD_cons_zero]
    | succ i' =>
      have h4 : (wordLEBytes w).length = 4 := rfl
      have hsk : 4 * (i' + 1) + r = (wordLEBytes w).length + (4 * i' + r) := by omega
      rw [hsk, List.getD_append_right _ _ _ _ (by omega)]
      have hsub : (wordLEBytes w).length + (4 * i' + r) - (wordLEBytes w).length =
          4 * i' + r := by omega
      rw [hsub, ih i' r (by simpa using hi) hr, List.getD_cons_succ]

/-- The test suite's little-endian byte-to-word conversion inverts the
source's word-to-byte serialization on eight words below `2 ^ 32`. -/
lemma leWords8_wordsLEBytes (ws : List Nat) (hlen : ws.length = 8)
    (hb : ∀ w ∈ ws, w < 4294967296) :
    leWords8 (wordsLEBytes ws) = ws := by
  apply List.ext_getElem
  · simp [leWords8, hlen]
  · intro i h1 h2
    have hi8 : i < 8 := by simpa [leWords8] using h1
    have hlt : i < ws.length := by omega
    simp only [leWords8]
    rw [List.getElem_map, List.getElem_range]
    have g0 := wordsLEBytes_getD ws i 0 hlt (by norm_num)
    have g1 := wordsLEBytes_getD ws i 1 hlt (by norm_num)
    have g2 := wordsLEBytes_getD ws i 2 hlt (by norm_num)
    have g3 := wordsLEBytes_getD ws i 3 hlt (by norm_num)
    rw [Nat.add_zero] at g0
    rw [g0, g1, g2, g3]
    simp only [wordLEBytes, List.getD_cons_zero, List.getD_cons_succ]
    rw [List.getD_eq_getElem ws 0 hlt]
    have hx : ws[i] < 4294967296 := hb ws[i] (List.getElem_mem hlt)
    omega

/-- A 32-byte root output is the truncated first stride. -/
lemma root_output_bytes_32 (o : Output) :
    o.root_output_bytes 32 = (o.rootStrideBytes 0).take 32 := by
  rw [Output.root_output_bytes, rootOutputLoop_spec o 32 0 32 (by norm_num)]
  have h1 : ((32 : Nat) + 63) / 64 = 1 := rfl
  rw [h1]
  have h2 : List.range 1 = [0] := rfl
  rw [h2, List.map_cons, List.map_nil]
  simp

/-- Setting the ROOT flag and reading the chaining value is the same as
reading the first 32 root-output bytes back as eight little-endian words,
for any `Output` whose own counter is 0. -/
lemma chaining_value_eq_leWords8_root (o : Output) (hc : o.counter = 0) :
    Output.chaining_value { o with flags := Nat.lor o.flags ROOT } =
      leWords8 (o.root_output_bytes 32) := by
  rw [root_output_bytes_32, Output.rootStrideBytes]
  have htake := wordsLEBytes_take 8
    (compress o.input_chaining_value o.block_words 0 o.block_len (Nat.lor o.flags ROOT))
  rw [show (4 : Nat) * 8 = 32 from rfl] at htake
  rw [htake]
  have hlen8 : ((compress o.input_chaining_value o.block_words 0 o.block_len
      (Nat.lor o.flags ROOT)).take 8).length = 8 := by
    rw [List.length_take, compress_length]
    omega
  have hb : ∀ w ∈ (compress o.input_chaining_value o.block_words 0 o.block_len
      (Nat.lor o.flags ROOT)).take 8, w < 4294967296 :=
    chaining_value_lt ⟨o.input_chaining_value, o.block_words, 0, o.block_len,
      Nat.lor o.flags ROOT⟩
  rw [leWords8_wordsLEBytes _ hlen8 hb]
  simp only [Output.chaining_value]
  rw [hc]
  rfl

lemma buildLevels_step (fuel : Nat) (tree : List Output) (s nodes : Nat) (hs : 2 ≤ s) :
    buildLevels (fuel + 1) tree s nodes =
      buildLevels fuel (levelStep s nodes tree) (s / 2) ((nodes + 1) / 2) := by
  simp only [buildLevels]
  rw [if_neg (by omega)]

lemma buildLevels_le_one : ∀ (fuel : Nat) (tree : List Output) (s nodes : Nat), s ≤ 1 →
    buildLevels fuel tree s nodes = tree := by
  intro fuel tree s nodes hs
  cases fuel with
  | zero => rfl
  | succ f =>
    simp only [buildLevels]
    rw [if_pos hs]

lemma unbalancedCreate_three (a b c : Output) :
    unbalancedCreate (List.replicate 8 emptyOutput) 3 [a, b, c] =
      buildLevels 4 [emptyOutput, emptyOutput, emptyOutput, emptyOutput, a, b, c,
        emptyOutput] 4 3 := by
  simp only [unbalancedCreate]
  rw [if_neg (by norm_num)]
  have hls : (List.replicate 8 emptyOutput).length / 2 = 4 := rfl
  rw [hls]
  have hlen3 : ([a, b, c] : List Output).length = 3 := rfl
  rw [hlen3]
  have hT : (([a, b, c] : List Output).zip (List.range 3)).foldl
      (fun t p => t.set (4 + p.2) p.1) (List.replicate 8 emptyOutput) =
      [emptyOutput, emptyOutput, emptyOutput, emptyOutput, a, b, c, emptyOutput] := rfl
  rw [hT]

set_option maxRecDepth 10000 in
/-- C8.  On the 3-chunk input in which chunk `k` is the byte `k + 1`
repeated 1024 times, the unbalanced tree's root chaining value equals the
32-byte streaming hash of the concatenated input read as eight
little-endian words.  (The tree pairs chunks 0 and 1, promotes chunk 2, and
pairs the results — exactly the streaming hasher's merge order for three
chunks.) -/
theorem c8_unbalanced_three_chunk_root_matches_hash :
    (UnbalancedMerkleTree.new_from_leaves (process_input_to_chunks
        (List.replicate 1024 1 ++ List.replicate 1024 2 ++
          List.replicate 1024 3))).root.chaining_value =
      leWords8 ((Blake3Hasher.new.update
        (List.replicate 1024 1 ++ List.replicate 1024 2 ++
          List.replicate 1024 3)).finalize 32) := by
  set B : List Nat := List.replicate 1024 1 ++ List.replicate 1024 2 ++
    List.replicate 1024 3 with hBdef
  clear_value B
  have hBlen : B.length = 1024 * 3 := by
    rw [hBdef, List.length_append, List.length_append, List.length_replicate,
      List.length_replicate, List.length_replicate]
  have hupd := hasher_new_update B 3 (by norm_num) hBlen
  rw [show (3 : Nat) - 1 = 2 from rfl] at hupd
  have hfold : foldChunks B [] 0 2 = [(nodeOf (chunkOut B) 0 1).chaining_value] := by
    rw [show (2 : Nat) = 2 ^ 1 from rfl, foldChunks_pow B 1 0 [] (dvd_zero _),
      show (0 : Nat) / 2 ^ 1 + 1 = 1 from rfl]
    rw [addChunkCV_odd IV 0 [] _ 1 (by norm_num)]
  have hcs : ((ChunkState.new IV 2 0).update ((B.drop (1024 * 2)).take 1024)).output =
      chunkOut B 2 := rfl
  have hfin : (Blake3Hasher.new.update B).finalize 32 =
      (parent_output (nodeOf (chunkOut B) 0 1).chaining_value
        (chunkOut B 2).chaining_value IV 0).root_output_bytes 32 := by
    rw [hupd, Blake3Hasher.finalize]
    show (finalizeFold IV 0
        ((ChunkState.new IV 2 0).update ((B.drop (1024 * 2)).take 1024)).output
        (foldChunks B [] 0 2)).root_output_bytes 32 = _
    rw [hfold]
    simp only [finalizeFold]
    rw [hcs]
  have hos : process_input_to_chunks B = [chunkOut B 0, chunkOut B 1, chunkOut B 2] := by
    rw [process_input_to_chunks_eq]
    have hc3 : (B.length + 1023) / 1024 = 3 := by rw [hBlen]
    rw [hc3]
    rfl
  have h0 : (UnbalancedMerkleTree.new_from_leaves
        [chunkOut B 0, chunkOut B 1, chunkOut B 2]).tree =
      unbalancedCreate (List.replicate
          (2 * nextPow2 ([chunkOut B 0, chunkOut B 1, chunkOut B 2] : List Output).length)
          emptyOutput)
        ([chunkOut B 0, chunkOut B 1, chunkOut B 2] : List Output).length
        [chunkOut B 0, chunkOut B 1, chunkOut B 2] := rfl
  rw [show ([chunkOut B 0, chunkOut B 1, chunkOut B 2] : List Output).length = 3 from rfl,
    show nextPow2 3 = 4 from rfl, show (2 : Nat) * 4 = 8 from rfl,
    unbalancedCreate_three (chunkOut B 0) (chunkOut B 1) (chunkOut B 2)] at h0
  have hl1 : levelStep 4 3 [emptyOutput, emptyOutput, emptyOutput, emptyOutput,
        chunkOut B 0, chunkOut B 1, chunkOut B 2, emptyOutput] =
      [emptyOutput, emptyOutput,
        parent_output (chunkOut B 0).chaining_value (chunkOut B 1).chaining_value IV 0,
        chunkOut B 2, chunkOut B 0, chunkOut B 1, chunkOut B 2, emptyOutput] := rfl
  have hl2 : levelStep 2 2 [emptyOutput, emptyOutput,
        parent_output (chunkOut B 0).chaining_value (chunkOut B 1).chaining_value IV 0,
        chunkOut B 2, chunkOut B 0, chunkOut B 1, chunkOut B 2, emptyOutput] =
      [emptyOutput,
        parent_output (parent_output (chunkOut B 0).chaining_value
          (chunkOut B 1).chaining_value IV 0).chaining_value
          (chunkOut B 2).chaining_value IV 0,
        parent_output (chunkOut B 0).chaining_value (chunkOut B 1).chaining_value IV 0,
        chunkOut B 2, chunkOut B 0, chunkOut B 1, chunkOut B 2, emptyOutput] := rfl
  have hs1 := buildLevels_step 3 [emptyOutput, emptyOutput, emptyOutput, emptyOutput,
    chunkOut B 0, chunkOut B 1, chunkOut B 2, emptyOutput] 4 3 (by norm_num)
  norm_num at hs1
  rw [hl1] at hs1
  have hs2 := buildLevels_step 2 [emptyOutput, emptyOutput,
    parent_output (chunkOut B 0).chaining_value (chunkOut B 1).chaining_value IV 0,
    chunkOut B 2, chunkOut B 0, chunkOut B 1, chunkOut B 2, emptyOutput] 2 2 (by norm_num)
  norm_num at hs2
  rw [hl2] at hs2
  have hnode : nodeOf (chunkOut B) 0 1 =
      parent_output (chunkOut B 0).chaining_value (chunkOut B 1).chaining_value IV 0 := rfl
  have htr : (UnbalancedMerkleTree.new_from_leaves
        [chunkOut B 0, chunkOut B 1, chunkOut B 2]).tree.getD 1 emptyOutput =
      parent_output (nodeOf (chunkOut B) 0 1).chaining_value
        (chunkOut B 2).chaining_value IV 0 := by
    rw [h0, hs1, hs2, buildLevels_le_one 2 _ 1 1 le_rfl, hnode]
    rfl
  rw [hos, hfin]
  simp only [UnbalancedMerkleTree.root]
  rw [htr]
  exact chaining_value_eq_leWords8_root
    (parent_output (nodeOf (chunkOut B) 0 1).chaining_value
      (chunkOut B 2).chaining_value IV 0) rfl

/-! ## Index arithmetic of the insertion paths -/

lemma xor_one_even (q : Nat) : Nat.xor (2 * q) 1 = 2 * q + 1 := by
  apply Nat.eq_of_testBit_eq
  intro i
  show ((2 * q) ^^^ 1).testBit i = (2 * q + 1).testBit i
  rw [Nat.testBit_xor]
  cases i with
  | zero =>
    simp only [Nat.testBit_zero]
    have h1 : 2 * q % 2 = 0 := by omega
    have h2 : (2 * q + 1) % 2 = 1 := by omega
    rw [h1, h2]
    decide
  | succ n =>
    rw [Nat.testBit_succ, Nat.testBit_succ, Nat.testBit_succ]
    have h1 : 2 * q / 2 = q := by omega
    have h2 : (2 * q + 1) / 2 = q := by omega
    have h3 : (1 : Nat) / 2 = 0 := rfl
    rw [h1, h2, h3, Nat.zero_testBit, Bool.xor_false]

lemma xor_one_odd (q : Nat) : Nat.xor (2 * q + 1) 1 = 2 * q := by
  apply Nat.eq_of_testBit_eq
  intro i
  show ((2 * q + 1) ^^^ 1).testBit i = (2 * q).testBit i
  rw [Nat.testBit_xor]
  cases i with
  | zero =>
    simp only [Nat.testBit_zero]
    have h1 : 2 * q % 2 = 0 := by omega
    have h2 : (2 * q + 1) % 2 = 1 := by omega
    rw [h1, h2]
    decide
  | succ n =>
    rw [Nat.testBit_succ, Nat.testBit_succ, Nat.testBit_succ]
    have h1 : 2 * q / 2 = q := by omega
    have h2 : (2 * q + 1) / 2 = q := by omega
    have h3 : (1 : Nat) / 2 = 0 := rfl
    rw [h1, h2, h3, Nat.zero_testBit, Bool.xor_false]

lemma getSiblingIndex_even (q : Nat) : getSiblingIndex (2 * q) = 2 * q + 1 := by
  rw [getSiblingIndex, xor_one_even]

lemma getSiblingIndex_odd (q : Nat) : getSiblingIndex (2 * q + 1) = 2 * q := by
  rw [getSiblingIndex, xor_one_odd]

lemma leftRightIndices_even (q : Nat) :
    leftRightIndices (2 * q) = (2 * q, 2 * q + 1) := by
  simp only [leftRightIndices, getSiblingIndex, xor_one_even, isLeftNode,
    decide_eq_true_eq]
  rw [if_neg (by omega : ¬ (2 * q + 1) % 2 = 0), if_pos (by omega : 2 * q % 2 = 0)]
  simp

lemma leftRightIndices_odd (q : Nat) :
    leftRightIndices (2 * q + 1) = (2 * q, 2 * q + 1) := by
  simp only [leftRightIndices, getSiblingIndex, xor_one_odd, isLeftNode,
    decide_eq_true_eq]
  rw [if_pos (by omega : 2 * q % 2 = 0), if_neg (by omega : ¬ (2 * q + 1) % 2 = 0)]
  simp

/-- `canonSlot` only looks at the leaves below the slot. -/
lemma canonSlot_congr (os os' : List Output) (hlen : os.length = os'.length) :
    ∀ (i : Nat), (∀ t, t < os.length → (∃ m, (os.length + t) / 2 ^ m = i) →
      os.getD t emptyOutput = os'.getD t emptyOutput) →
    canonSlot os i = canonSlot os' i := by
  suffices h : ∀ (fuel i : Nat), os.length - i ≤ fuel →
      (∀ t, t < os.length → (∃ m, (os.length + t) / 2 ^ m = i) →
        os.getD t emptyOutput = os'.getD t emptyOutput) →
      canonSlot os i = canonSlot os' i by
    exact fun i hyp => h os.length i (by omega) hyp
  intro fuel
  induction fuel with
  | zero =>
    intro i hle hyp
    by_cases h0 : i = 0
    · subst h0
      rw [canonSlot_zero, canonSlot_zero]
    · have hge : os.length ≤ i := by omega
      rw [canonSlot_leaf os i h0 hge, canonSlot_leaf os' i h0 (by omega), hlen]
      by_cases ht : i - os'.length < os.length
      · exact hyp (i - os'.length) ht ⟨0, by rw [pow_zero, Nat.div_one, hlen]; omega⟩
      · rw [List.getD_eq_default _ _ (by omega), List.getD_eq_default _ _ (by omega)]
  | succ fuel ih =>
    intro i hle hyp
    by_cases h0 : i = 0
    · subst h0
      rw [canonSlot_zero, canonSlot_zero]
    · by_cases hin : i < os.length
      · rw [canonSlot_inner os i h0 hin, canonSlot_inner os' i h0 (by omega)]
        have hA := ih (2 * i) (by omega)
          (fun t hlt hex => hyp t hlt (by
            obtain ⟨m, hm⟩ := hex
            refine ⟨m + 1, ?_⟩
            rw [pow_succ, ← Nat.div_div_eq_div_mul, hm]
            omega))
        have hB := ih (2 * i + 1) (by omega)
          (fun t hlt hex => hyp t hlt (by
            obtain ⟨m, hm⟩ := hex
            refine ⟨m + 1, ?_⟩
            rw [pow_succ, ← Nat.div_div_eq_div_mul, hm]
            omega))
        rw [hA, hB]
      · have hge : os.length ≤ i := by omega
        rw [canonSlot_leaf os i h0 hge, canonSlot_leaf os' i h0 (by omega), hlen]
        by_cases ht : i - os'.length < os.length
        · exact hyp (i - os'.length) ht ⟨0, by rw [pow_zero, Nat.div_one, hlen]; omega⟩
        · rw [List.getD_eq_default _ _ (by omega), List.getD_eq_default _ _ (by omega)]

/-! ## Characterizing the leaf-overwrite folds -/

lemma foldl_set_getD (f : Nat → Output) (d : Output) :
    ∀ (S : List Nat) (os : List Output) (j : Nat),
    (S.foldl (fun o i => o.set i (f i)) os).getD j d =
      if j ∈ S ∧ j < os.length then f j else os.getD j d := by
  intro S
  induction S with
  | nil =>
    intro os j
    rw [List.foldl_nil, if_neg (by simp)]
  | cons a S ih =>
    intro os j
    rw [List.foldl_cons, ih, List.length_set]
    by_cases hjS : j ∈ S ∧ j < os.length
    · rw [if_pos hjS, if_pos ⟨List.mem_cons_of_mem _ hjS.1, hjS.2⟩]
    · rw [if_neg hjS]
      by_cases hja : j = a
      · subst hja
        by_cases hlt : j < os.length
        · rw [getD_set_eq _ _ _ _ hlt, if_pos ⟨List.mem_cons_self _ _, hlt⟩]
        · rw [List.set_eq_of_length_le (by omega), if_neg (fun h => hlt h.2)]
      · rw [getD_set_ne _ _ _ _ _ (fun h => hja h.symm),
          if_neg (by
            rintro ⟨hm, hl⟩
            rcases List.mem_cons.mp hm with h | h
            · exact hja h
            · exact hjS ⟨h, hl⟩)]

lemma foldl_setShift_getD (f : Nat → Output) (n : Nat) (d : Output) :
    ∀ (S : List Nat) (T : List Output) (j : Nat),
    ((S.map (fun i => (i + n, f i))).foldl (fun tr p => tr.set p.1 p.2) T).getD j d =
      if j ∈ S.map (· + n) ∧ j < T.length then f (j - n) else T.getD j d := by
  intro S
  induction S with
  | nil =>
    intro T j
    rw [List.map_nil, List.foldl_nil, if_neg (by simp)]
  | cons a S ih =>
    intro T j
    rw [List.map_cons, List.foldl_cons, ih, List.length_set]
    by_cases hjS : j ∈ S.map (· + n) ∧ j < T.length
    · rw [if_pos hjS,
        if_pos ⟨by rw [List.map_cons]; exact List.mem_cons_of_mem _ hjS.1, hjS.2⟩]
    · rw [if_neg hjS]
      by_cases hja : j = a + n
      · subst hja
        by_cases hlt : a + n < T.length
        · rw [getD_set_eq _ _ _ _ hlt,
            if_pos ⟨by rw [List.map_cons]; exact List.mem_cons_self _ _, hlt⟩]
          have hsub : a + n - n = a := by omega
          rw [hsub]
        · rw [List.set_eq_of_length_le (by omega), if_neg (fun h => hlt h.2)]
      · rw [getD_set_ne _ _ _ _ _ (fun h => hja h.symm),
          if_neg (by
            rintro ⟨hm, hl⟩
            rw [List.map_cons] at hm
            rcases List.mem_cons.mp hm with h | h
            · exact hja h
            · exact hjS ⟨h, hl⟩)]

/-! ## `insert_leaf` on a canonical tree -/

lemma insertLeafLoop_length : ∀ (fuel : Nat) (T : List Output) (c : Nat),
    (insertLeafLoop fuel T c).length = T.length := by
  intro fuel
  induction fuel with
  | zero => intro T c; rfl
  | succ fuel ih =>
    intro T c
    simp only [insertLeafLoop]
    by_cases hc : c ≤ 1
    · rw [if_pos hc]
    · rw [if_neg hc, ih, List.length_set]

/-- The ancestor-update walk repairs a tree that is canonical everywhere
except on the proper ancestors of the walk's start. -/
lemma insertLeafLoop_canon (os' : List Output) :
    ∀ (fuel c : Nat) (T : List Output),
    1 ≤ c → c < 2 * os'.length → c < 2 ^ fuel →
    T.length = 2 * os'.length →
    (∀ j, ¬ properAnc c j → T.getD j emptyOutput = canonSlot os' j) →
    ∀ j, (insertLeafLoop fuel T c).getD j emptyOutput = canonSlot os' j := by
  intro fuel
  induction fuel with
  | zero =>
    intro c T h1 _ h3 _ _ _
    rw [pow_zero] at h3
    omega
  | succ fuel ih =>
    intro c T h1 h2 h3 hlen hinv j
    simp only [insertLeafLoop]
    by_cases hc1 : c ≤ 1
    · rw [if_pos hc1]
      apply hinv
      rintro ⟨hj1, m, hm1, hjm⟩
      have hc : c = 1 := by omega
      subst hc
      have h2m : 2 ≤ 2 ^ m := by
        calc (2 : Nat) = 2 ^ 1 := (pow_one 2).symm
          _ ≤ 2 ^ m := Nat.pow_le_pow_right (by omega) hm1
      have hz : 1 / 2 ^ m = 0 := Nat.div_eq_of_lt (by omega)
      omega
    · rw [if_neg hc1]
      have hlr : leftRightIndices c = (2 * (c / 2), 2 * (c / 2) + 1) := by
        obtain ⟨q, hq⟩ : ∃ q, c = 2 * q ∨ c = 2 * q + 1 := ⟨c / 2, by omega⟩
        rcases hq with h | h
        · rw [h, leftRightIndices_even]
          have hd : 2 * q / 2 = q := by omega
          rw [hd]
        · rw [h, leftRightIndices_odd]
          have hd : (2 * q + 1) / 2 = q := by omega
          rw [hd]
      rw [hlr]
      simp only [getParentIndex]
      have hanc : ∀ j', 2 * (c / 2) ≤ j' → ¬ properAnc c j' := by
        rintro j' hj' ⟨hj1, m, hm1, hjm⟩
        have hm : c / 2 ^ m ≤ c / 2 := by
          apply Nat.div_le_div_left _ (by omega)
          calc (2 : Nat) = 2 ^ 1 := (pow_one 2).symm
            _ ≤ 2 ^ m := Nat.pow_le_pow_right (by omega) hm1
        omega
      have hgl : T.getD (2 * (c / 2)) emptyOutput = canonSlot os' (2 * (c / 2)) :=
        hinv _ (hanc _ (by omega))
      have hgr : T.getD (2 * (c / 2) + 1) emptyOutput = canonSlot os' (2 * (c / 2) + 1) :=
        hinv _ (hanc _ (by omega))
      rw [hgl, hgr]
      have hparent : parent_output (canonSlot os' (2 * (c / 2))).chaining_value
          (canonSlot os' (2 * (c / 2) + 1)).chaining_value IV 0 = canonSlot os' (c / 2) := by
        rw [canonSlot_inner os' (c / 2) (by omega) (by omega)]
      rw [hparent]
      have hps : (2 : Nat) ^ (fuel + 1) = 2 * 2 ^ fuel := by rw [pow_succ]; ring
      apply ih (c / 2) (T.set (c / 2) (canonSlot os' (c / 2))) (by omega) (by omega)
        (by omega) (by rw [List.length_set]; exact hlen)
      intro j' hj'
      by_cases hjc : j' = c / 2
      · subst hjc
        rw [getD_set_eq _ _ _ _ (by omega)]
      · rw [getD_set_ne _ _ _ _ _ (fun h => hjc h.symm)]
        apply hinv
        rintro ⟨hj1, m, hm1, hjm⟩
        cases m with
        | zero => omega
        | succ m' =>
          cases m' with
          | zero =>
            rw [pow_one] at hjm
            exact hjc hjm
          | succ m'' =>
            apply hj'
            refine ⟨hj1, m'' + 1, by omega, ?_⟩
            have hdd : c / 2 / 2 ^ (m'' + 1) = c / 2 ^ (m'' + 1 + 1) := by
              rw [Nat.div_div_eq_div_mul]
              have h2 : 2 * 2 ^ (m'' + 1) = 2 ^ (m'' + 1 + 1) := by rw [pow_succ]; ring
              rw [h2]
            rw [hjm, hdd]

/-- `insert_leaf` maps the canonical tree over `os` to the canonical tree
over the updated leaves. -/
lemma insert_leaf_canon (os : List Output) (i : Nat) (v : Output) (hi : i < os.length) :
    BinaryMerkleTree.insert_leaf ⟨canonTree os⟩ i v = ⟨canonTree (os.set i v)⟩ := by
  have hn1 : 1 ≤ os.length := by omega
  simp only [BinaryMerkleTree.insert_leaf, BinaryMerkleTree.num_leaves]
  have hnum : (canonTree os).length / 2 = os.length := by
    rw [canonTree_length]
    omega
  rw [hnum]
  have htree : insertLeafLoop (i + os.length) ((canonTree os).set (i + os.length) v)
      (i + os.length) = canonTree (os.set i v) := by
    apply List.ext_getElem
    · rw [insertLeafLoop_length, List.length_set, canonTree_length, canonTree_length,
        List.length_set]
    · intro j hj1 hj2
      rw [← List.getD_eq_getElem _ emptyOutput hj1, ← List.getD_eq_getElem _ emptyOutput hj2]
      rw [canonTree_getD _ emptyOutput j (by
        rw [insertLeafLoop_length, List.length_set, canonTree_length] at hj1
        rw [List.length_set]
        exact hj1)]
      apply insertLeafLoop_canon (os.set i v) (i + os.length) (i + os.length)
        ((canonTree os).set (i + os.length) v) (by omega)
        (by rw [List.length_set]; omega) (Nat.lt_two_pow _)
        (by rw [List.length_set, canonTree_length, List.length_set])
      intro j' hj'
      by_cases hji : j' = i + os.length
      · subst hji
        rw [getD_set_eq _ _ _ _ (by rw [canonTree_length]; omega)]
        rw [canonSlot_leaf _ _ (by omega) (by rw [List.length_set]; omega), List.length_set]
        have hsub : i + os.length - os.length = i := by omega
        rw [hsub, getD_set_eq _ _ _ _ hi]
      · rw [getD_set_ne _ _ _ _ _ (fun h => hji h.symm)]
        by_cases hjlen : j' < 2 * os.length
        · by_cases hj0 : j' = 0
          · subst hj0
            rw [canonTree_getD os _ 0 (by omega), canonSlot_zero, canonSlot_zero]
          · rw [canonTree_getD os _ j' hjlen]
            apply canonSlot_congr os (os.set i v) (by rw [List.length_set]) j'
            intro t ht hex
            by_cases hti : t = i
            · obtain ⟨m, hm⟩ := hex
              rw [hti] at hm
              cases m with
              | zero =>
                rw [pow_zero, Nat.div_one] at hm
                exact absurd hm.symm (by omega)
              | succ m' =>
                exact absurd (show properAnc (i + os.length) j' from
                  ⟨by omega, m' + 1, by omega, by rw [← hm, Nat.add_comm]⟩) hj'
            · rw [getD_set_ne _ _ _ _ _ (fun h => hti h.symm)]
        · rw [List.getD_eq_default _ _ (by rw [canonTree_length]; omega),
            canonSlot_leaf _ j' (by omega) (by rw [List.length_set]; omega),
            List.getD_eq_default _ _ (by rw [List.length_set]; omega)]
  rw [htree]

/-! ## The bulk ancestor-update loop on a canonical tree -/

/-- The queue loop of the balanced bulk insertion repairs the tree level by
level: if the queue splits into an ascending block `A` of slots on one level
followed by an ascending block `P` of already-written parents on the level
above, and the tree is canonical outside the proper ancestors of the queue,
the loop produces a tree canonical everywhere. -/
lemma bulkLoop_canon (os' : List Output) :
    ∀ (fuel lvl : Nat) (A P : List Nat) (T : List Output),
    1 ≤ lvl →
    2 ^ lvl ≤ os'.length →
    (∀ x ∈ A, 2 ^ lvl ≤ x ∧ x < 2 ^ (lvl + 1)) →
    (∀ p ∈ P, 2 ^ (lvl - 1) ≤ p ∧ p < 2 ^ lvl) →
    List.Pairwise (· < ·) A →
    List.Pairwise (· < ·) P →
    (∀ p ∈ P, ∀ x ∈ A, 2 * p + 1 < x) →
    (A ++ P).sum + 1 ≤ fuel →
    T.length = 2 * os'.length →
    (∀ j, (∀ q ∈ A ++ P, ¬ properAnc q j) → T.getD j emptyOutput = canonSlot os' j) →
    ∀ j, (bulkLoop fuel T (A ++ P)).getD j emptyOutput = canonSlot os' j := by
  intro fuel
  induction fuel with
  | zero =>
    intro lvl A P T _ _ _ _ _ _ _ hfuel _ _ _
    omega
  | succ f ihf =>
    intro lvl
    induction lvl with
    | zero =>
      intro A P T hlvl _ _ _ _ _ _ _ _ _ _
      omega
    | succ d ihd =>
      intro A P T hlvl hdn hA hP hpwA hpwP hPA hfuel hlen hinv j
      have hpd1 : 1 ≤ (2 : Nat) ^ d := Nat.one_le_two_pow
      have hpd : (2 : Nat) ^ (d + 1) = 2 * 2 ^ d := by rw [pow_succ]; ring
      have hps : (2 : Nat) ^ (d + 1 + 1) = 2 * 2 ^ (d + 1) := by rw [pow_succ]; ring
      cases A with
      | nil =>
        rw [List.nil_append] at hfuel hinv ⊢
        cases P with
        | nil =>
          rw [bulkLoop_nil]
          apply hinv
          intro q hq
          exact absurd hq (List.not_mem_nil q)
        | cons p P' =>
          by_cases hd0 : d = 0
          · subst hd0
            have hpb := hP p (List.mem_cons_self _ _)
            have hp1 : p = 1 := by
              rw [pow_one] at hpb
              have : (2 : Nat) ^ (0 + 1 - 1) = 1 := by rw [pow_zero]
              omega
            have hP' : P' = [] := by
              cases P' with
              | nil => rfl
              | cons x P'' =>
                have hxb := hP x (List.mem_cons_of_mem _ (List.mem_cons_self _ _))
                have hpx := (List.pairwise_cons.mp hpwP).1 x (List.mem_cons_self _ _)
                rw [pow_one] at hxb
                have : (2 : Nat) ^ (0 + 1 - 1) = 1 := by rw [pow_zero]
                omega
            subst hp1
            subst hP'
            simp only [bulkLoop, if_true]
            apply hinv
            intro q hq panc
            rw [List.mem_singleton] at hq
            subst hq
            obtain ⟨hj1, m, hm1, hjm⟩ := panc
            have h2m : 2 ≤ 2 ^ m := by
              calc (2 : Nat) = 2 ^ 1 := (pow_one 2).symm
                _ ≤ 2 ^ m := Nat.pow_le_pow_right (by omega) hm1
            have hz : 1 / 2 ^ m = 0 := Nat.div_eq_of_lt (by omega)
            omega
          · have hres := ihd (p :: P') [] T (by omega)
              (by calc (2 : Nat) ^ d ≤ 2 ^ (d + 1) :=
                    Nat.pow_le_pow_right (by omega) (by omega)
                _ ≤ os'.length := hdn)
              hP (fun x hx => absurd hx (List.not_mem_nil x)) hpwP List.Pairwise.nil
              (fun x hx => absurd hx (List.not_mem_nil x))
              (by rw [List.append_nil]; exact hfuel) hlen
              (fun j' hj' => hinv j' (fun q hq => hj' q (by
                rw [List.append_nil]
                exact hq)))
            rw [List.append_nil] at hres
            exact hres j
      | cons a A' =>
        have hab := hA a (List.mem_cons_self _ _)
        have ha2 : 2 ≤ a := by omega
        obtain ⟨qa, hqa⟩ : ∃ qa, a = 2 * qa ∨ a = 2 * qa + 1 := ⟨a / 2, by omega⟩
        have hsibge : 2 ^ (d + 1) ≤ getSiblingIndex a := by
          rcases hqa with h | h
          · rw [h, getSiblingIndex_even]
            omega
          · rw [h, getSiblingIndex_odd]
            omega
        have hsiblt : getSiblingIndex a < 2 ^ (d + 1 + 1) := by
          rcases hqa with h | h
          · rw [h, getSiblingIndex_even]
            omega
          · rw [h, getSiblingIndex_odd]
            omega
        have hsibdiv : getSiblingIndex a / 2 = a / 2 := by
          rcases hqa with h | h
          · rw [h, getSiblingIndex_even]
            omega
          · rw [h, getSiblingIndex_odd]
            omega
        have hlr : leftRightIndices a = (2 * (a / 2), 2 * (a / 2) + 1) := by
          rcases hqa with h | h
          · rw [h, leftRightIndices_even]
            have hd2 : 2 * qa / 2 = qa := by omega
            rw [hd2]
          · rw [h, leftRightIndices_odd]
            have hd2 : (2 * qa + 1) / 2 = qa := by omega
            rw [hd2]
        have hlr1 : (leftRightIndices a).1 = 2 * (a / 2) := by rw [hlr]
        have hlr2 : (leftRightIndices a).2 = 2 * (a / 2) + 1 := by rw [hlr]
        have hstale : ∀ q ∈ a :: (A' ++ P), ∀ j', properAnc q j' → j' < 2 ^ (d + 1) := by
          rintro q hq j' ⟨hj1, m, hm1, hjm⟩
          have hqb : q < 2 ^ (d + 1 + 1) := by
            rcases List.mem_cons.mp hq with h | h
            · subst h
              exact hab.2
            · rcases List.mem_append.mp h with h2 | h2
              · exact (hA _ (List.mem_cons_of_mem _ h2)).2
              · have hb := (hP _ h2).2
                omega
          have hdiv : q / 2 ^ m ≤ q / 2 := by
            apply Nat.div_le_div_left _ (by omega)
            calc (2 : Nat) = 2 ^ 1 := (pow_one 2).symm
              _ ≤ 2 ^ m := Nat.pow_le_pow_right (by omega) hm1
          omega
        have hgl : T.getD (2 * (a / 2)) emptyOutput = canonSlot os' (2 * (a / 2)) :=
          hinv _ (fun q hq panc => absurd (hstale q (by
            rw [List.cons_append] at hq
            exact hq) _ panc) (by omega))
        have hgr : T.getD (2 * (a / 2) + 1) emptyOutput =
            canonSlot os' (2 * (a / 2) + 1) :=
          hinv _ (fun q hq panc => absurd (hstale q (by
            rw [List.cons_append] at hq
            exact hq) _ panc) (by omega))
        have hparent : parent_output
            (T.getD (2 * (a / 2)) emptyOutput).chaining_value
            (T.getD (2 * (a / 2) + 1) emptyOutput).chaining_value IV 0 =
            canonSlot os' (a / 2) := by
          rw [hgl, hgr, canonSlot_inner os' (a / 2) (by omega) (by omega)]
        have hcommon : ∀ (A2 Q : List Nat),
            Q = A2 ++ (P ++ [a / 2]) →
            (∀ x ∈ A2, 2 ^ (d + 1) ≤ x ∧ x < 2 ^ (d + 1 + 1)) →
            List.Pairwise (· < ·) A2 →
            (∀ x ∈ A2, 2 * (a / 2) + 1 < x) →
            (∀ p ∈ P, ∀ x ∈ A2, 2 * p + 1 < x) →
            Q.sum + 1 ≤ f →
            (∀ q ∈ A' ++ P, q ∈ A2 ++ P ∨ q = getSiblingIndex a) →
            (bulkLoop f
                (T.set (a / 2)
                  (parent_output (T.getD (2 * (a / 2)) emptyOutput).chaining_value
                    (T.getD (2 * (a / 2) + 1) emptyOutput).chaining_value IV 0)) Q).getD j
              emptyOutput = canonSlot os' j := by
          intro A2 Q hQ hA2b hA2pw hA2gt hPA2 hsum2 htrans
          subst hQ
          rw [hparent]
          apply ihf (d + 1) A2 (P ++ [a / 2])
            (T.set (a / 2) (canonSlot os' (a / 2))) (by omega) hdn hA2b
            (by
              intro p hp
              rcases List.mem_append.mp hp with h | h
              · exact hP p h
              · rw [List.mem_singleton] at h
                subst h
                constructor
                · show 2 ^ (d + 1 - 1) ≤ a / 2
                  have he : d + 1 - 1 = d := rfl
                  rw [he]
                  omega
                · omega)
            hA2pw
            (by
              rw [List.pairwise_append]
              refine ⟨hpwP, List.pairwise_singleton _ _, ?_⟩
              intro p hp x hx
              rw [List.mem_singleton] at hx
              subst hx
              have := hPA p hp a (List.mem_cons_self _ _)
              omega)
            (by
              intro p hp x hx
              rcases List.mem_append.mp hp with h | h
              · exact hPA2 p h x hx
              · rw [List.mem_singleton] at h
                subst h
                exact hA2gt x hx)
            hsum2
            (by rw [List.length_set]; exact hlen)
            (by
              intro j' hj'
              by_cases hj'a2 : j' = a / 2
              · subst hj'a2
                rw [getD_set_eq _ _ _ _ (by omega)]
              · rw [getD_set_ne _ _ _ _ _ (fun h => hj'a2 h.symm)]
                apply hinv
                intro q hq panc
                have hmemdiv : properAnc (a / 2) j' → False := by
                  intro pa2
                  exact hj' (a / 2)
                    (List.mem_append.mpr (Or.inr (List.mem_append.mpr
                      (Or.inr (List.mem_singleton.mpr rfl))))) pa2
                have hreduce : ∀ q', q' / 2 = a / 2 → properAnc q' j' → False := by
                  rintro q' hq2 ⟨hj1, m, hm1, hjm⟩
                  cases m with
                  | zero => omega
                  | succ m' =>
                    cases m' with
                    | zero =>
                      rw [pow_one] at hjm
                      rw [hq2] at hjm
                      exact hj'a2 hjm
                    | succ m'' =>
                      apply hmemdiv
                      refine ⟨hj1, m'' + 1, by omega, ?_⟩
                      have hdd : q' / 2 / 2 ^ (m'' + 1) = q' / 2 ^ (m'' + 1 + 1) := by
                        rw [Nat.div_div_eq_div_mul]
                        have h2 : 2 * 2 ^ (m'' + 1) = 2 ^ (m'' + 1 + 1) := by
                          rw [pow_succ]
                          ring
                        rw [h2]
                      rw [hjm, ← hdd, hq2]
                rcases List.mem_cons.mp (by rw [List.cons_append] at hq; exact hq)
                    with h | h
                · exact hreduce a rfl (h ▸ panc)
                · rcases htrans q h with h2 | h2
                  · rcases List.mem_append.mp h2 with h3 | h3
                    · exact absurd panc (hj' q (List.mem_append.mpr (Or.inl h3)))
                    · exact absurd panc (hj' q (List.mem_append.mpr
                        (Or.inr (List.mem_append.mpr (Or.inl h3)))))
                  · subst h2
                    exact absurd panc (fun pa => hreduce _ hsibdiv pa))
        cases A' with
        | nil =>
          cases P with
          | nil =>
            rw [List.cons_append, List.nil_append]
            simp only [bulkLoop, getParentIndex]
            rw [if_neg (by omega : ¬ a = 1), hlr1, hlr2]
            exact hcommon [] ([] ++ [a / 2]) (by simp) (by simp) List.Pairwise.nil
              (by simp) (by simp)
              (by
                simp only [List.nil_append, List.cons_append, List.sum_cons,
                  List.sum_nil, List.sum_append] at hfuel ⊢
                omega)
              (fun q hq => Or.inl hq)
          | cons p P' =>
            have hpnots : ¬ p = getSiblingIndex a := by
              have := (hP p (List.mem_cons_self _ _)).2
              omega
            rw [List.cons_append, List.nil_append]
            simp only [bulkLoop, getParentIndex]
            rw [if_neg (by omega : ¬ a = 1), if_neg hpnots, hlr1, hlr2]
            exact hcommon [] ((p :: P') ++ [a / 2]) (by rw [List.nil_append])
              (by simp) List.Pairwise.nil (by simp) (by simp)
              (by
                simp only [List.nil_append, List.cons_append, List.sum_cons,
                  List.sum_nil, List.sum_append] at hfuel ⊢
                omega)
              (fun q hq => Or.inl hq)
        | cons b A'' =>
          have habx := (List.pairwise_cons.mp hpwA).1 b (List.mem_cons_self _ _)
          have hpwA' : List.Pairwise (· < ·) (b :: A'') := (List.pairwise_cons.mp hpwA).2
          rw [List.cons_append, List.cons_append]
          simp only [bulkLoop, getParentIndex]
          rw [if_neg (by omega : ¬ a = 1), hlr1, hlr2]
          by_cases hbs : b = getSiblingIndex a
          · have haeven : a % 2 = 0 ∧ b = a + 1 := by
              rcases hqa with h | h
              · rw [h, getSiblingIndex_even] at hbs
                refine ⟨by omega, by omega⟩
              · rw [h, getSiblingIndex_odd] at hbs
                omega
            rw [if_pos hbs]
            exact hcommon A'' ((A'' ++ P) ++ [a / 2]) (by rw [List.append_assoc])
              (fun x hx => hA x (List.mem_cons_of_mem _ (List.mem_cons_of_mem _ hx)))
              (List.pairwise_cons.mp hpwA').2
              (by
                intro x hx
                have hbx := (List.pairwise_cons.mp hpwA').1 x hx
                omega)
              (fun p hp x hx => hPA p hp x
                (List.mem_cons_of_mem _ (List.mem_cons_of_mem _ hx)))
              (by
                simp only [List.cons_append, List.sum_cons, List.sum_nil,
                  List.sum_append] at hfuel ⊢
                omega)
              (by
                intro q hq
                rcases List.mem_append.mp hq with h | h
                · rcases List.mem_cons.mp h with h2 | h2
                  · exact Or.inr (h2.trans hbs)
                  · exact Or.inl (List.mem_append.mpr (Or.inl h2))
                · exact Or.inl (List.mem_append.mpr (Or.inr h)))
          · rw [if_neg hbs]
            exact hcommon (b :: A'') ((b :: (A'' ++ P)) ++ [a / 2])
              (by rw [List.cons_append, List.append_assoc, List.cons_append])
              (fun x hx => hA x (List.mem_cons_of_mem _ hx))
              hpwA'
              (by
                intro x hx
                have hbx : b ≤ x := by
                  rcases List.mem_cons.mp hx with h | h
                  · omega
                  · have := (List.pairwise_cons.mp hpwA').1 x h
                    omega
                rcases hqa with h | h
                · rw [h, getSiblingIndex_even] at hbs
                  omega
                · omega)
              (fun p hp x hx => hPA p hp x (List.mem_cons_of_mem _ hx))
              (by
                simp only [List.cons_append, List.sum_cons, List.sum_nil,
                  List.sum_append] at hfuel ⊢
                omega)
              (fun q hq => Or.inl hq)

/-! ## Assembling the bulk-insertion claim -/

lemma not_properAnc_one (j : Nat) : ¬ properAnc 1 j := by
  rintro ⟨hj1, m, hm1, hjm⟩
  have h2m : 2 ≤ 2 ^ m := by
    calc (2 : Nat) = 2 ^ 1 := (pow_one 2).symm
      _ ≤ 2 ^ m := Nat.pow_le_pow_right (by omega) hm1
  have hz : 1 / 2 ^ m = 0 := Nat.div_eq_of_lt (by omega)
  omega

lemma bulkLoop_length : ∀ (fuel : Nat) (T : List Output) (Q : List Nat),
    (bulkLoop fuel T Q).length = T.length := by
  intro fuel
  induction fuel with
  | zero => intro T Q; rfl
  | succ f ih =>
    intro T Q
    cases Q with
    | nil => rfl
    | cons c rest =>
      simp only [bulkLoop]
      by_cases hc : c = 1
      · rw [if_pos hc]
      · rw [if_neg hc, ih, List.length_set]

lemma foldl_set_length (f : Nat → Output) : ∀ (S : List Nat) (os : List Output),
    (S.foldl (fun o i => o.set i (f i)) os).length = os.length := by
  intro S
  induction S with
  | nil => intro os; rfl
  | cons a S ih =>
    intro os
    rw [List.foldl_cons, ih, List.length_set]

lemma foldl_setPairs_length : ∀ (ps : List (Nat × Output)) (T : List Output),
    (ps.foldl (fun tr p => tr.set p.1 p.2) T).length = T.length := by
  intro ps
  induction ps with
  | nil => intro T; rfl
  | cons p ps ih =>
    intro T
    rw [List.foldl_cons, ih, List.length_set]

lemma eq_canonTree_of_getD (os' : List Output) (X : List Output)
    (hlen : X.length = 2 * os'.length)
    (h : ∀ j, X.getD j emptyOutput = canonSlot os' j) : X = canonTree os' := by
  apply List.ext_getElem
  · rw [hlen, canonTree_length]
  · intro j h1 h2
    rw [← List.getD_eq_getElem _ emptyOutput h1, ← List.getD_eq_getElem _ emptyOutput h2,
      h j, canonTree_getD _ _ j (by rw [canonTree_length] at h2; exact h2)]

/-- Overwriting selected positions of the original chunk outputs with the
recomputed ones yields exactly the mutated input's chunk outputs. -/
lemma updated_leaves_map (B B' : List Nat) (k : Nat) (S : List Nat)
    (hSlt : ∀ i ∈ S, i < 2 ^ k)
    (hagree : ∀ j, j < 2 ^ k → j ∉ S → chunkOut B' j = chunkOut B j) :
    S.foldl (fun o i => o.set i (chunkOut B' i)) ((List.range (2 ^ k)).map (chunkOut B)) =
      (List.range (2 ^ k)).map (chunkOut B') := by
  have hosl : ((List.range (2 ^ k)).map (chunkOut B)).length = 2 ^ k := by
    rw [List.length_map, List.length_range]
  have hos'l : ((List.range (2 ^ k)).map (chunkOut B')).length = 2 ^ k := by
    rw [List.length_map, List.length_range]
  apply List.ext_getElem
  · rw [foldl_set_length, hosl, hos'l]
  · intro i h1 h2
    have hi : i < 2 ^ k := by rw [hos'l] at h2; exact h2
    rw [← List.getD_eq_getElem _ emptyOutput h1, ← List.getD_eq_getElem _ emptyOutput h2,
      foldl_set_getD]
    have hgB' : ((List.range (2 ^ k)).map (chunkOut B')).getD i emptyOutput =
        chunkOut B' i := by
      rw [List.getD_eq_getElem _ _ (by rw [hos'l]; exact hi), List.getElem_map,
        List.getElem_range]
    have hgB : ((List.range (2 ^ k)).map (chunkOut B)).getD i emptyOutput =
        chunkOut B i := by
      rw [List.getD_eq_getElem _ _ (by rw [hosl]; exact hi), List.getElem_map,
        List.getElem_range]
    by_cases hiS : i ∈ S
    · rw [if_pos ⟨hiS, by rw [hosl]; exact hi⟩, hgB']
    · rw [if_neg (fun h => hiS h.1), hgB, hgB', hagree i hi hiS]

/-- Applying `insert_leaf` over a list of indices carries the canonical tree
to the canonical tree over the correspondingly overwritten leaves. -/
lemma insert_fold_canon (B' : List Nat) : ∀ (S : List Nat) (os0 : List Output),
    (∀ i ∈ S, i < os0.length) →
    S.foldl (fun tr i => tr.insert_leaf i (chunkOut B' i)) ⟨canonTree os0⟩ =
      (⟨canonTree (S.foldl (fun o i => o.set i (chunkOut B' i)) os0)⟩ :
        BinaryMerkleTree) := by
  intro S
  induction S with
  | nil => intro os0 _; rfl
  | cons i S ih =>
    intro os0 hb
    rw [List.foldl_cons, List.foldl_cons,
      insert_leaf_canon os0 i _ (hb i (List.mem_cons_self _ _))]
    exact ih (os0.set i (chunkOut B' i)) (fun x hx => by
      rw [List.length_set]
      exact hb x (List.mem_cons_of_mem _ hx))

/-- The leaf-overwrite pass of the bulk insertion, at any slot that is not a
proper ancestor of an updated leaf slot, already agrees with the canonical
tree over the mutated chunk outputs. -/
lemma bulk_tree0_getD (B B' : List Nat) (k : Nat) (S : List Nat)
    (hSlt : ∀ i ∈ S, i < 2 ^ k)
    (hagree : ∀ j, j < 2 ^ k → j ∉ S → chunkOut B' j = chunkOut B j) (j : Nat)
    (hna : ∀ i ∈ S, ¬ properAnc (i + 2 ^ k) j) :
    ((S.map (fun i => (i + 2 ^ k, chunkOut B' i))).foldl (fun tr p => tr.set p.1 p.2)
        (canonTree ((List.range (2 ^ k)).map (chunkOut B)))).getD j emptyOutput =
      canonSlot ((List.range (2 ^ k)).map (chunkOut B')) j := by
  have hpk : 1 ≤ 2 ^ k := Nat.one_le_two_pow
  have hosl : ((List.range (2 ^ k)).map (chunkOut B)).length = 2 ^ k := by
    rw [List.length_map, List.length_range]
  have hos'l : ((List.range (2 ^ k)).map (chunkOut B')).length = 2 ^ k := by
    rw [List.length_map, List.length_range]
  have hctl : (canonTree ((List.range (2 ^ k)).map (chunkOut B))).length = 2 * 2 ^ k := by
    rw [canonTree_length, hosl]
  have hgB : ∀ t, t < 2 ^ k →
      ((List.range (2 ^ k)).map (chunkOut B)).getD t emptyOutput = chunkOut B t := by
    intro t ht
    rw [List.getD_eq_getElem _ _ (by rw [hosl]; exact ht), List.getElem_map,
      List.getElem_range]
  have hgB' : ∀ t, t < 2 ^ k →
      ((List.range (2 ^ k)).map (chunkOut B')).getD t emptyOutput = chunkOut B' t := by
    intro t ht
    rw [List.getD_eq_getElem _ _ (by rw [hos'l]; exact ht), List.getElem_map,
      List.getElem_range]
  rw [foldl_setShift_getD]
  by_cases hjA : j ∈ S.map (· + 2 ^ k)
  · obtain ⟨i, hiS, hieqb⟩ := List.mem_map.mp hjA
    have hieq : i + 2 ^ k = j := hieqb
    have hik := hSlt i hiS
    rw [if_pos ⟨hjA, by rw [hctl]; omega⟩,
      canonSlot_leaf _ j (by omega) (by rw [hos'l]; omega), hos'l,
      hgB' (j - 2 ^ k) (by omega)]
  · rw [if_neg (fun h => hjA h.1)]
    by_cases hjlen : j < 2 * 2 ^ k
    · rw [canonTree_getD _ _ j (by rw [hosl]; exact hjlen)]
      by_cases hj0 : j = 0
      · subst hj0
        rw [canonSlot_zero, canonSlot_zero]
      · by_cases hjleaf : 2 ^ k ≤ j
        · rw [canonSlot_leaf _ j hj0 (by rw [hosl]; exact hjleaf),
            canonSlot_leaf _ j hj0 (by rw [hos'l]; exact hjleaf), hosl, hos'l]
          have ht : j - 2 ^ k < 2 ^ k := by omega
          rw [hgB _ ht, hgB' _ ht]
          have htS : j - 2 ^ k ∉ S := by
            intro hmem
            apply hjA
            exact List.mem_map.mpr ⟨j - 2 ^ k, hmem, by
              show j - 2 ^ k + 2 ^ k = j
              omega⟩
          rw [hagree (j - 2 ^ k) ht htS]
        · apply canonSlot_congr _ _ (by rw [hosl, hos'l]) j
          intro t ht hex
          rw [hosl] at ht
          rw [hosl] at hex
          rw [hgB t ht, hgB' t ht]
          by_cases htS : t ∈ S
          · obtain ⟨m, hm⟩ := hex
            cases m with
            | zero =>
              rw [pow_zero, Nat.div_one] at hm
              omega
            | succ m' =>
              exact absurd (show properAnc (t + 2 ^ k) j from
                ⟨by omega, m' + 1, by omega, by rw [← hm, Nat.add_comm]⟩) (hna t htS)
          · rw [hagree t ht htS]
    · rw [List.getD_eq_default _ _ (by rw [hctl]; omega),
        canonSlot_leaf _ j (by omega) (by rw [hos'l]; omega),
        List.getD_eq_default _ _ (by rw [hos'l]; omega)]

/-- C5.  On a balanced tree built from an input of `2 ^ k` full chunks, for
every non-empty strictly-ascending list `S` of chunk indices and recomputed
outputs (the chunk outputs of a mutated input `B'` that agrees with `B` off
`S`), `bulk_insert_leaves` succeeds and returns exactly the tree obtained by
one `insert_leaf` per entry of `S` in ascending order, and that tree's root
output bytes equal the streaming hash of the mutated input. -/
theorem c5_bulk_insert_matches_insert_fold_and_hash (B B' : List Nat) (k : Nat)
    (S : List Nat) (hB : B.length = 1024 * 2 ^ k) (hB' : B'.length = 1024 * 2 ^ k)
    (hSne : S ≠ []) (hasc : List.Chain' (· < ·) S) (hSlt : ∀ i ∈ S, i < 2 ^ k)
    (hagree : ∀ j, j < 2 ^ k → j ∉ S → chunkOut B' j = chunkOut B j) :
    (BinaryMerkleTree.new_from_leaves (process_input_to_chunks B)).bulk_insert_leaves S
        (S.map (chunkOut B')) =
      BulkResult.ok (S.foldl (fun tr i => tr.insert_leaf i (chunkOut B' i))
        (BinaryMerkleTree.new_from_leaves (process_input_to_chunks B))) ∧
    (S.foldl (fun tr i => tr.insert_leaf i (chunkOut B' i))
        (BinaryMerkleTree.new_from_leaves
          (process_input_to_chunks B))).root.root_output_bytes 32 =
      (Blake3Hasher.new.update B').finalize 32 := by
  have hpk : 1 ≤ 2 ^ k := Nat.one_le_two_pow
  have hcount : (B.length + 1023) / 1024 = 2 ^ k := by rw [hB]; omega
  have hos : process_input_to_chunks B = (List.range (2 ^ k)).map (chunkOut B) := by
    rw [process_input_to_chunks_eq, hcount]
  have hosl : ((List.range (2 ^ k)).map (chunkOut B)).length = 2 ^ k := by
    rw [List.length_map, List.length_range]
  have hos'l : ((List.range (2 ^ k)).map (chunkOut B')).length = 2 ^ k := by
    rw [List.length_map, List.length_range]
  have htree : BinaryMerkleTree.new_from_leaves ((List.range (2 ^ k)).map (chunkOut B)) =
      ⟨canonTree ((List.range (2 ^ k)).map (chunkOut B))⟩ := by
    have h0 : BinaryMerkleTree.new_from_leaves ((List.range (2 ^ k)).map (chunkOut B)) =
        ⟨(BinaryMerkleTree.new_from_leaves
          ((List.range (2 ^ k)).map (chunkOut B))).tree⟩ := rfl
    rw [h0, createTree_canon _ k hosl]
  rw [hos, htree,
    insert_fold_canon B' S ((List.range (2 ^ k)).map (chunkOut B))
      (fun i hi => by rw [hosl]; exact hSlt i hi),
    updated_leaves_map B B' k S hSlt hagree]
  constructor
  · rw [BinaryMerkleTree.bulk_insert_leaves]
    simp only [BinaryMerkleTree.num_leaves]
    have hnum : (canonTree ((List.range (2 ^ k)).map (chunkOut B))).length / 2 = 2 ^ k := by
      rw [canonTree_length, hosl]
      omega
    simp only [hnum]
    rw [if_neg (by
      simp only [List.length_map]
      intro h
      exact hSne (List.length_eq_zero.mp h))]
    have hcheck : ((List.range ((S.map (· + 2 ^ k)).length - 1)).all fun i =>
        decide ((S.map (· + 2 ^ k)).getD i 0 < (S.map (· + 2 ^ k)).getD (i + 1) 0)) =
        true :=
      (isSortedCheck_iff _).mpr ((chain'_map_add S (2 ^ k)).mpr hasc)
    rw [if_neg (not_not_intro hcheck)]
    simp only [List.zip_map']
    refine congrArg BulkResult.ok (congrArg BinaryMerkleTree.mk ?_)
    apply eq_canonTree_of_getD
    · rw [bulkLoop_length, foldl_setPairs_length, canonTree_length, hosl, hos'l]
    · intro j
      by_cases hk0 : k = 0
      · subst hk0
        have hS0 : S = [0] := by
          cases S with
          | nil => exact absurd rfl hSne
          | cons i S' =>
            have hi0 : i = 0 := by
              have h := hSlt i (List.mem_cons_self _ _)
              rw [pow_zero] at h
              omega
            subst hi0
            cases S' with
            | nil => rfl
            | cons i2 S'' =>
              have hi20 : i2 < 1 := by
                have h := hSlt i2 (List.mem_cons_of_mem _ (List.mem_cons_self _ _))
                rwa [pow_zero] at h
              have hlt := (List.chain'_cons.mp hasc).1
              omega
        subst hS0
        rw [show ([0] : List Nat).map (· + 2 ^ 0) = [1] from rfl]
        have hstop : ∀ (f' : Nat) (T' : List Output), bulkLoop (f' + 1) T' [1] = T' := by
          intro f' T'
          simp [bulkLoop]
        rw [hstop]
        exact bulk_tree0_getD B B' 0 [0] hSlt hagree j
          (fun i hi => by
            rw [List.mem_singleton] at hi
            subst hi
            show ¬ properAnc (0 + 2 ^ 0) j
            rw [show (0 : Nat) + 2 ^ 0 = 1 from rfl]
            exact not_properAnc_one j)
      · have hone : 1 ≤ k := by omega
        rw [← List.append_nil (S.map (· + 2 ^ k))]
        apply bulkLoop_canon ((List.range (2 ^ k)).map (chunkOut B')) _ k
          (S.map (· + 2 ^ k)) [] _ hone (by rw [hos'l])
          (by
            intro x hx
            obtain ⟨i, hiS, hieqb⟩ := List.mem_map.mp hx
            have hieq : i + 2 ^ k = x := hieqb
            have := hSlt i hiS
            have hps : (2 : Nat) ^ (k + 1) = 2 * 2 ^ k := by rw [pow_succ]; ring
            omega)
          (fun p hp => absurd hp (List.not_mem_nil p))
          ((List.chain'_iff_pairwise.mp ((chain'_map_add S (2 ^ k)).mpr hasc)))
          List.Pairwise.nil
          (fun p hp => absurd hp (List.not_mem_nil p))
          (by
            rw [List.append_nil, List.sum_eq_foldl]
            omega)
          (by rw [foldl_setPairs_length, canonTree_length, hosl, hos'l])
          (by
            intro j' hj'
            rw [List.append_nil] at hj'
            exact bulk_tree0_getD B B' k S hSlt hagree j'
              (fun i hi => hj' (i + 2 ^ k)
                (List.mem_map.mpr ⟨i, hi, rfl⟩)))
  · simp only [BinaryMerkleTree.root]
    rw [canonTree_getD _ emptyOutput 1 (by rw [hos'l]; omega),
      canonSlot_root _ k hos'l]
    have hleafcongr :
        nodeOf (fun j => ((List.range (2 ^ k)).map (chunkOut B')).getD j emptyOutput) 0 k =
          nodeOf (chunkOut B') 0 k := by
      apply nodeOf_congr
      intro x hx1 hx2
      rw [List.getD_eq_getElem _ _ (by rw [hos'l]; omega), List.getElem_map,
        List.getElem_range]
    rw [hleafcongr, root_output_bytes_lor_root, hasher_finalize_pow B' k hB' 32]

/-- Witness for C5: a one-chunk input of zero bytes whose single chunk is
re-recorded as a chunk of one bytes. -/
theorem c5_bulk_insert_matches_insert_fold_and_hash_witness :
    (List.replicate 1024 (0 : Nat)).length = 1024 * 2 ^ 0 ∧
    (List.replicate 1024 (1 : Nat)).length = 1024 * 2 ^ 0 ∧
    ([0] : List Nat) ≠ [] ∧
    List.Chain' (· < ·) ([0] : List Nat) ∧
    (∀ i ∈ ([0] : List Nat), i < 2 ^ 0) ∧
    ((BinaryMerkleTree.new_from_leaves
          (process_input_to_chunks (List.replicate 1024 (0 : Nat)))).bulk_insert_leaves
          [0] (([0] : List Nat).map (chunkOut (List.replicate 1024 (1 : Nat)))) =
        BulkResult.ok (([0] : List Nat).foldl
          (fun tr i => tr.insert_leaf i (chunkOut (List.replicate 1024 (1 : Nat)) i))
          (BinaryMerkleTree.new_from_leaves
            (process_input_to_chunks (List.replicate 1024 (0 : Nat))))) ∧
      (([0] : List Nat).foldl
          (fun tr i => tr.insert_leaf i (chunkOut (List.replicate 1024 (1 : Nat)) i))
          (BinaryMerkleTree.new_from_leaves
            (process_input_to_chunks
              (List.replicate 1024 (0 : Nat))))).root.root_output_bytes 32 =
        (Blake3Hasher.new.update (List.replicate 1024 (1 : Nat))).finalize 32) :=
  ⟨by rw [List.length_replicate, pow_zero, Nat.mul_one],
    by rw [List.length_replicate, pow_zero, Nat.mul_one],
    by simp,
    List.chain'_singleton _,
    by
      intro i hi
      rw [List.mem_singleton] at hi
      subst hi
      rw [pow_zero]
      omega,
    c5_bulk_insert_matches_insert_fold_and_hash (List.replicate 1024 0)
      (List.replicate 1024 1) 0 [0]
      (by rw [List.length_replicate, pow_zero, Nat.mul_one])
      (by rw [List.length_replicate, pow_zero, Nat.mul_one])
      (by simp)
      (List.chain'_singleton _)
      (by
        intro i hi
        rw [List.mem_singleton] at hi
        subst hi
        rw [pow_zero]
        omega)
      (by
        intro j hj hnj
        rw [pow_zero] at hj
        have hj0 : j = 0 := by omega
        subst hj0
        exact absurd (List.mem_singleton.mpr rfl) hnj)⟩

end MerkleB3
